import Mathlib

/-!
Verification of the CodeMerger file-aggregation core.

This file gives a shallow embedding of the core of the CodeMerger
application (src/App.tsx and its components): the ordered file store and
its mutation operations, the merged-document assembler, the folder-tree
builder with tri-state selection, the ASCII structure renderer, and the
ingestion pipeline, together with theorems about them.

Modelling conventions:
* JavaScript strings are Lean `String`s; character-level operations
  (split, replace, contains, endsWith, toLowerCase, trim) are defined on
  `String.data` so that they evaluate by kernel reduction.
* `localeCompare` is modelled as lexicographic comparison of code points
  (`lexLE`); for the ASCII segment names exercised here the two agree.
* `Array.prototype.sort` with a comparator is modelled as a stable sort
  (`List.insertionSort`); stable sorts with the same total preorder agree
  pointwise, so the choice of stable algorithm is immaterial.
* JavaScript `Set` objects over numbers are modelled as `Finset ℕ`.
* Out-of-range array accesses that would produce `undefined` in
  JavaScript are outside the model; the affected operations fall back to
  the unchanged list in those (never exercised) branches.
-/

/-- One file record of the store: a slash-delimited path and its text
content (the FileData interface of src/types). -/
structure FileData where
  name : String
  content : String
deriving DecidableEq

/-- Lexicographic comparison of character lists by code point; model of
the ordering that String.localeCompare induces on the ASCII names used
by the tree views. -/
def lexLE : List Char → List Char → Bool
  | [], _ => true
  | _ :: _, [] => false
  | a :: as, b :: bs =>
    if a.toNat < b.toNat then true
    else if b.toNat < a.toNat then false
    else lexLE as bs

/-- Name comparison used by the sort comparators. -/
def nameLE (a b : String) : Bool := lexLE a.data b.data

/-- Split a character list on a separator character, mirroring
JavaScript String.split with a single-character separator
(so splitting the empty string yields one empty field). -/
def splitOnCharList (sep : Char) : List Char → List (List Char)
  | [] => [[]]
  | c :: cs =>
    if c = sep then [] :: splitOnCharList sep cs
    else
      match splitOnCharList sep cs with
      | [] => [[c]]
      | r :: rs => (c :: r) :: rs

/-- Split a path string on '/', as file.name.split('/') does. -/
def splitSlash (s : String) : List String :=
  (splitOnCharList '/' s.data).map String.mk

/-- Join character lists with a separator; inverse of splitOnCharList. -/
def joinCharLists (sep : Char) : List (List Char) → List Char
  | [] => []
  | [x] => x
  | x :: y :: rest => x ++ sep :: joinCharLists sep (y :: rest)

/-- Join with '/'; inverse of splitSlash, used to show path splitting is
injective. -/
def joinSlash (parts : List String) : String :=
  ⟨joinCharLists '/' (parts.map String.data)⟩

/-- Replace every occurrence of pat (left to right, non-overlapping) in
a character list, mirroring String.replace with a global regexp of a
literal pattern.  The fuel argument (instantiated with the length of the
scanned list, an upper bound on the number of steps) makes the
recursion structural so that it evaluates by kernel reduction. -/
def replaceAllCharsAux (pat repl : List Char) : Nat → List Char → List Char
  | _, [] => []
  | 0, s => s
  | fuel + 1, c :: cs =>
    if pat ≠ [] ∧ pat.isPrefixOf (c :: cs) then
      repl ++ replaceAllCharsAux pat repl fuel (List.drop pat.length (c :: cs))
    else
      c :: replaceAllCharsAux pat repl fuel cs

/-- Replace every occurrence of pat in a character list. -/
def replaceAllChars (pat repl s : List Char) : List Char :=
  replaceAllCharsAux pat repl s.length s

/-- String.replace of every occurrence of a literal pattern. -/
def stringReplaceAll (s pat repl : String) : String :=
  ⟨replaceAllChars pat.data repl.data s.data⟩

/-- The Document Assembler (mergedContent in src/App.tsx), parameterised
by the file-name placeholder token as in the spec; the application
instantiates the token with "{fileName}".  Each record's header is the
template with every occurrence of the token replaced by the record's
name; blocks are header, newline, content, joined by a blank line. -/
def mergedContent (placeholder headerTemplate : String) (filesData : List FileData) : String :=
  if filesData.length = 0 then ""
  else
    String.intercalate "\n\n"
      (filesData.map fun file =>
        stringReplaceAll headerTemplate placeholder file.name ++ "\n" ++ file.content)

/-- handleMoveUp of src/App.tsx: no-op at index 0, otherwise swap the
records at index-1 and index. -/
def handleMoveUp (l : List FileData) (index : Nat) : List FileData :=
  if index = 0 then l
  else
    match l[index - 1]?, l[index]? with
    | some a, some b => (l.set (index - 1) b).set index a
    | _, _ => l

/-- handleMoveDown of src/App.tsx: no-op at the last index, otherwise
swap the records at index and index+1.  The guard compares against
length - 1 over ℤ exactly as the JavaScript comparison does. -/
def handleMoveDown (l : List FileData) (index : Nat) : List FileData :=
  if (index : Int) = (l.length : Int) - 1 then l
  else
    match l[index]?, l[index + 1]? with
    | some a, some b => (l.set (index + 1) a).set index b
    | _, _ => l

/-- handleReorder of src/App.tsx: splice the record out at fromIndex and
splice it back in at toIndex of the shortened list. -/
def handleReorder (l : List FileData) (fromIndex toIndex : Nat) : List FileData :=
  match l[fromIndex]? with
  | some movedItem => (l.eraseIdx fromIndex).insertIdx toIndex movedItem
  | none => l

/-- handleRemoveFile of src/App.tsx: keep every record whose position
differs from the given index. -/
def handleRemoveFile (l : List FileData) (index : Nat) : List FileData :=
  (l.enum.filter fun p => p.1 != index).map Prod.snd

/-- handleRemoveMultiple of src/App.tsx: keep every record whose
position is not listed in indices. -/
def handleRemoveMultiple (l : List FileData) (indices : List Nat) : List FileData :=
  (l.enum.filter fun p => !(indices.contains p.1)).map Prod.snd

/-- Position-indexed recursion equivalent of handleRemoveMultiple, used
to reason about it by induction. -/
def removeManyAux (indices : List Nat) : Nat → List FileData → List FileData
  | _, [] => []
  | k, a :: l =>
    if indices.contains k then removeManyAux indices (k + 1) l
    else a :: removeManyAux indices (k + 1) l

/-- Combined application state: the ordered file store (filesData of
src/App.tsx) and the tree view's selected index set (selectedIndices of
the FileList component).  The useEffect with dependency [files] resets
the selection whenever a new files array is set; dispatch composes each
handler with that effect. -/
structure AppState where
  filesData : List FileData
  selectedIndices : Finset Nat
deriving DecidableEq

/-- The store mutations of src/App.tsx. -/
inductive StoreOp where
  | append (batch : List FileData)
  | moveUp (i : Nat)
  | moveDown (i : Nat)
  | removeOne (i : Nat)
  | removeMany (indices : List Nat)
  | reorder (fromIndex toIndex : Nat)
  | clear

/-- One store mutation followed by the selection-reset effect.  The
guarded early returns of handleMoveUp (index 0) and handleMoveDown
(last index) never call setFilesData, so no re-render happens and the
selection-clearing useEffect does not fire in those two cases. -/
def dispatch (s : AppState) : StoreOp → AppState
  | .append batch => ⟨s.filesData ++ batch, ∅⟩
  | .moveUp i =>
    if i = 0 then s else ⟨handleMoveUp s.filesData i, ∅⟩
  | .moveDown i =>
    if (i : Int) = (s.filesData.length : Int) - 1 then s
    else ⟨handleMoveDown s.filesData i, ∅⟩
  | .removeOne i => ⟨handleRemoveFile s.filesData i, ∅⟩
  | .removeMany indices => ⟨handleRemoveMultiple s.filesData indices, ∅⟩
  | .reorder fromIndex toIndex => ⟨handleReorder s.filesData fromIndex toIndex, ∅⟩
  | .clear => ⟨[], ∅⟩

/-- Substring test on character lists, mirroring String.includes. -/
def listContainsSub (pat : List Char) : List Char → Bool
  | [] => pat.isEmpty
  | c :: cs => pat.isPrefixOf (c :: cs) || listContainsSub pat cs

/-- Substring test on strings. -/
def containsSub (s pat : String) : Bool := listContainsSub pat.data s.data

/-- Character-wise toLowerCase. -/
def lowerString (s : String) : String := ⟨s.data.map Char.toLower⟩

/-- String suffix test, mirroring String.endsWith. -/
def endsWithStr (s suf : String) : Bool := suf.data.isSuffixOf s.data

/-- One entry of an opened archive, as the Archive Expander black box
delivers it to the loop of processFiles: its path inside the archive, a
directory flag, and the decoded text or none when decoding that entry
failed. -/
structure ZipEntry where
  relativePath : String
  dir : Bool
  content : Option String

/-- One uploaded blob as classified by processFiles: its name and MIME
type hint, the outcome of opening it as an archive (none means the
archive failed to open), and the outcome of reading it as plain text
(none means the read failed).  The reading primitives themselves are the
external black boxes of the spec; their outcomes are inputs here. -/
structure UploadBlob where
  name : String
  typeHint : String
  zipResult : Option (List ZipEntry)
  textResult : Option String

/-- Archive classification rule of processFiles: name ends in .zip
(case-insensitively) or the MIME type is one of the two zip types. -/
def isZipTyped (b : UploadBlob) : Bool :=
  endsWithStr (lowerString b.name) ".zip"
    || b.typeHint == "application/zip"
    || b.typeHint == "application/x-zip-compressed"

/-- Junk filter of the zip loop: macOS resource-fork directories and
Finder bookkeeping files are dropped. -/
def isJunkPath (p : String) : Bool :=
  containsSub p "__MACOSX" || containsSub p ".DS_Store"

/-- The per-entry step of the zip loop of processFiles: directories and
junk paths contribute nothing; a decode failure contributes the fixed
placeholder record; otherwise the decoded record is kept. -/
def processEntry (e : ZipEntry) : Option FileData :=
  if e.dir then none
  else if isJunkPath e.relativePath then none
  else
    match e.content with
    | some c => some ⟨e.relativePath, c⟩
    | none => some ⟨e.relativePath, "[Error reading file content inside zip]"⟩

/-- The per-blob step of processFiles. -/
def processBlob (b : UploadBlob) : List FileData :=
  if isZipTyped b then
    match b.zipResult with
    | none => [⟨b.name, "[Error: Failed to unzip file]"⟩]
    | some entries => entries.filterMap processEntry
  else
    match b.textResult with
    | some c => [⟨b.name, c⟩]
    | none => [⟨b.name, "[Error reading file]"⟩]

/-- The batch assembled by processFiles for one ingestion invocation
(newFilesList), appended to the store at the end. -/
def processFiles (blobs : List UploadBlob) : List FileData :=
  blobs.flatMap processBlob

/-- A node of the derived folder tree (the TreeNode helper type of the
FileList component): segment name, full path from the root, folder flag,
ordered children, and for file nodes the index of the originating store
record. -/
inductive TreeNode where
  | mk (name : String) (path : String) ( isFolder : Bool)
      (children : List TreeNode) (fileIndex : Option Nat)

/-- Segment name of a tree node. -/
def TreeNode.name : TreeNode → String
  | .mk n _ _ _ _ => n

/-- Full path of a tree node. -/
def TreeNode.path : TreeNode → String
  | .mk _ p _ _ _ => p

/-- Folder flag of a tree node. -/
def TreeNode.isFolder : TreeNode → Bool
  | .mk _ _ f _ _ => f

/-- Children of a tree node. -/
def TreeNode.children : TreeNode → List TreeNode
  | .mk _ _ _ ch _ => ch

/-- Store index of a file node. -/
def TreeNode.fileIndex : TreeNode → Option Nat
  | .mk _ _ _ _ fi => fi

/-- Path of a child node: parent path joined with '/' unless the parent
path is empty (the root), exactly the truthiness test of the source. -/
def childPath (parentPath p : String) : String :=
  if parentPath = "" then p else parentPath ++ "/" ++ p

/-- The chain of fresh nodes the build loop creates when no existing
child matches: one folder per remaining intermediate segment and a file
node carrying the record index for the last segment. -/
def buildChain (index : Nat) (parentPath : String) : List String → TreeNode
  | [] => TreeNode.mk "" parentPath false [] (some index)
  | [p] => TreeNode.mk p (childPath parentPath p) false [] (some index)
  | p :: q :: rest =>
    TreeNode.mk p (childPath parentPath p) true
      [buildChain index (childPath parentPath p) (q :: rest)] none

/-- One step of the build walk over a children list: reuse the first
child matching the segment name and the required folder flag (folder for
intermediate segments, file for the last), descending into it for the
remaining segments; append a fresh chain at the end when no child
matches.  The descent is passed as a function so that both recursions
are structural. -/
def insertChildrenWith (index : Nat) (parentPath : String) (p : String)
    (rest : List String) (descend : String → List TreeNode → List TreeNode) :
    List TreeNode → List TreeNode
  | [] => [buildChain index parentPath (p :: rest)]
  | c :: cs =>
    if c.name = p ∧ c.isFolder = !rest.isEmpty then
      (match rest, c with
       | [], c => c
       | _ :: _, .mk n pth f ch fi => TreeNode.mk n pth f (descend pth ch) fi) :: cs
    else
      c :: insertChildrenWith index parentPath p rest descend cs

/-- Insert one record's path segments into a children list, walking and
extending the tree exactly as the forEach loop of treeStructure does. -/
def insertPath (index : Nat) : List String → String → List TreeNode → List TreeNode
  | [], _, children => children
  | p :: rest, parentPath, children =>
    insertChildrenWith index parentPath p rest
      (fun pth ch => insertPath index rest pth ch) children

/-- Fold the build walk over an indexed record list, starting from an
accumulated forest. -/
def buildFold (acc : List TreeNode) (ps : List (Nat × FileData)) : List TreeNode :=
  ps.foldl (fun a q => insertPath q.1 (splitSlash q.2.name) "" a) acc

/-- The unsorted root children list after inserting every record of the
store in order. -/
def buildForest (files : List FileData) : List TreeNode :=
  files.enum.foldl (fun acc q => insertPath q.1 (splitSlash q.2.name) "" acc) []

/-- The sort comparator of treeStructure: folders before files, and
locale-aware name comparison (modelled by code-point order) within a
group; nodeLE a b holds when the comparator does not order b strictly
before a. -/
def nodeLE (a b : TreeNode) : Bool :=
  if a.isFolder == b.isFolder then nameLE a.name b.name else a.isFolder

/-- nodeLE as a relation, for the stable sort. -/
def rLE (a b : TreeNode) : Prop := nodeLE a b = true

instance : DecidableRel rLE := fun a b => by
  unfold rLE
  infer_instance

mutual

/-- Recursively sort a node's children with the folder-first comparator
(the sortNodes pass of treeStructure). -/
def sortTree : TreeNode → TreeNode
  | .mk n p f ch fi => TreeNode.mk n p f (List.insertionSort rLE (sortForest ch)) fi

/-- Recursively sort every tree of a forest. -/
def sortForest : List TreeNode → List TreeNode
  | [] => []
  | t :: ts => sortTree t :: sortForest ts

end

/-- The Tree Builder (treeStructure of the FileList component): build
the forest from the store in order, then sort it recursively. -/
def treeStructure (files : List FileData) : List TreeNode :=
  List.insertionSort rLE (sortForest (buildForest files))

mutual

/-- getAllIndicesUnderNode of the FileList component: a non-folder node
with a file index yields its singleton; any other node yields the
concatenation over its children. -/
def getAllIndicesUnderNode : TreeNode → List Nat
  | .mk _ _ false _ (some i) => [i]
  | .mk _ _ _ ch _ => indicesUnderForest ch

/-- flatMap of getAllIndicesUnderNode over a forest. -/
def indicesUnderForest : List TreeNode → List Nat
  | [] => []
  | t :: ts => getAllIndicesUnderNode t ++ indicesUnderForest ts

end

mutual

/-- Every store index recorded anywhere in a tree (the fileIndex fields
of all nodes of the subtree). -/
def nodeIndices : TreeNode → List Nat
  | .mk _ _ _ ch fi => fi.toList ++ forestIndices ch

/-- All fileIndex fields over a forest. -/
def forestIndices : List TreeNode → List Nat
  | [] => []
  | t :: ts => nodeIndices t ++ forestIndices ts

end

/-- First child of a children list that is a folder with the given
name, as the find of the build walk selects it for an intermediate
segment. -/
def findFolder (p : String) : List TreeNode → Option TreeNode
  | [] => none
  | c :: cs => if c.name = p ∧ c.isFolder = true then some c else findFolder p cs

/-- Whether the walk for the given segments would find an existing file
node: intermediate segments must match existing folders and the last
segment an existing file child. -/
def hasFilePath : List String → List TreeNode → Bool
  | [], _ => false
  | [p], children => children.any fun c => c.name == p && c.isFolder == false
  | p :: rest, children =>
    match findFolder p children with
    | some c => hasFilePath rest c.children
    | none => false

/-- Adjacent-pairs check that a children list is ordered by nodeLE. -/
def pairwiseNodeLE : List TreeNode → Bool
  | [] => true
  | [_] => true
  | a :: b :: rest => nodeLE a b && pairwiseNodeLE (b :: rest)

mutual

/-- A tree is recursively sorted: its children list is ordered by the
comparator and every child is recursively sorted. -/
def allSortedNode : TreeNode → Bool
  | .mk _ _ _ ch _ => pairwiseNodeLE ch && allSortedForest ch

/-- Every tree of the forest is recursively sorted. -/
def allSortedForest : List TreeNode → Bool
  | [] => true
  | t :: ts => allSortedNode t && allSortedForest ts

end

/-- Tri-state selection status of a node. -/
inductive SelStatus where
  | checked
  | unchecked
  | indeterminate
deriving DecidableEq

/-- getSelectionStatus of the FileList component: unchecked when the
node covers no indices or none of them is selected, checked when all of
them are, indeterminate otherwise. -/
def getSelectionStatus (sel : Finset Nat) (node : TreeNode) : SelStatus :=
  let nodeIdxs := getAllIndicesUnderNode node
  if nodeIdxs.length = 0 then .unchecked
  else
    let selectedCount := (nodeIdxs.filter fun i => decide (i ∈ sel)).length
    if selectedCount = 0 then .unchecked
    else if selectedCount = nodeIdxs.length then .checked
    else .indeterminate

/-- toggleSelection of the FileList component: if every index under the
node is selected, remove them all, otherwise add them all. -/
def toggleSelection (sel : Finset Nat) (node : TreeNode) : Finset Nat :=
  let nodeIdxs := getAllIndicesUnderNode node
  if nodeIdxs.all fun i => decide (i ∈ sel) then
    nodeIdxs.foldl (fun s i => s.erase i) sel
  else
    nodeIdxs.foldl (fun s i => insert i s) sel

/-- The nested object the Structure Renderer builds: a JavaScript
object maps each segment either to null (a file, the terminal segment
of some path) or to a nested object (a folder); entries keep insertion
order. -/
inductive PathTrie where
  | file
  | node (entries : List (String × PathTrie))

/-- Value stored under a key, first occurrence. -/
def lookupEntry (p : String) : List (String × PathTrie) → Option PathTrie
  | [] => none
  | (k, v) :: t => if k = p then some v else lookupEntry p t

/-- Replace the value under an existing key, keeping its position. -/
def setEntry (p : String) (v : PathTrie) : List (String × PathTrie) → List (String × PathTrie)
  | [] => []
  | (k, w) :: t => if k = p then (k, v) :: t else (k, w) :: setEntry p v t

/-- Insert one record's segments into the renderer's nested object:
a missing or null slot is (re)written (null for the terminal segment,
a nested object otherwise, so a file slot is overwritten by a folder
when a longer path needs it), while an existing object slot is kept
(dropping a duplicate terminal segment); then descend. -/
def trieInsert : List String → List (String × PathTrie) → List (String × PathTrie)
  | [], entries => entries
  | [p], entries =>
    match lookupEntry p entries with
    | some (.node _) => entries
    | some .file => setEntry p .file entries
    | none => entries ++ [(p, .file)]
  | p :: q :: rest, entries =>
    match lookupEntry p entries with
    | some (.node sub) => setEntry p (.node (trieInsert (q :: rest) sub)) entries
    | some .file => setEntry p (.node (trieInsert (q :: rest) [])) entries
    | none => entries ++ [(p, .node (trieInsert (q :: rest) []))]

/-- The renderer's key comparator: folders (non-null values) first,
then locale-aware name order (modelled by code-point order). -/
def entryLE (a b : String × PathTrie) : Bool :=
  match a.2, b.2 with
  | .node _, .file => true
  | .file, .node _ => false
  | _, _ => nameLE a.1 b.1

/-- entryLE as a relation, for the stable sort. -/
def rEntryLE (a b : String × PathTrie) : Prop := entryLE a b = true

instance : DecidableRel rEntryLE := fun a b => by
  unfold rEntryLE
  infer_instance

/-- One level of the ASCII rendering: each sorted entry contributes its
ancestor prefix, a corner glyph for the last sibling or a tee glyph
otherwise, its name and a newline, followed by the rendering of its
sub-entries under a prefix extended by four blanks (after a corner) or
a continuation bar (after a tee).  The sub-rendering is passed as a
function so the recursion is structural. -/
def renderLevel (renderSub : List (String × PathTrie) → String → String) :
    List (String × PathTrie) → String → String
  | [], _ => ""
  | (k, v) :: rest, pre =>
    pre ++ (if rest.isEmpty then "└── " else "├── ") ++ k ++ "\n"
      ++ (match v with
          | .node es => renderSub es (pre ++ (if rest.isEmpty then "    " else "│   "))
          | .file => "")
      ++ renderLevel renderSub rest pre

/-- Render entries sorted by the comparator, stopping below the given
depth fuel (instantiated with a bound larger than the trie's depth). -/
def renderEntries : Nat → List (String × PathTrie) → String → String
  | 0, _, _ => ""
  | fuel + 1, entries, pre =>
    renderLevel (renderEntries fuel) (List.insertionSort rEntryLE entries) pre

/-- Characters removed by String.trim on the renderer output. -/
def isTrimmableChar (c : Char) : Bool :=
  c = ' ' || c = '\n' || c = '\t' || c = '\r'

/-- String.trim: strip leading and trailing whitespace. -/
def trimString (s : String) : String :=
  ⟨((s.data.dropWhile isTrimmableChar).reverse.dropWhile isTrimmableChar).reverse⟩

/-- A depth bound for the renderer: one more than the total number of
path segments over all records dominates the nesting depth. -/
def structureFuel (files : List FileData) : Nat :=
  files.foldl (fun n f => n + (splitSlash f.name).length) 1

/-- The Structure Renderer (treeString of src/components/
StructureViewer.tsx): build the nested object from every record's
segments, then emit the "." root line and the recursively rendered,
folder-first sorted levels, and trim the result. -/
def treeString (files : List FileData) : String :=
  if files.length = 0 then ""
  else
    let root := files.foldl (fun acc f => trieInsert (splitSlash f.name) acc) []
    trimString ("." ++ "\n" ++ renderEntries (structureFuel files) root "")

/-- C1 (Document Assembler on a two-record store): with header template
"FILE: {name}" whose placeholder token is "{name}" and records x.txt/"1"
and y.txt/"2", the merged document is exactly
"FILE: x.txt\n1\n\nFILE: y.txt\n2". -/
theorem mergedContent_two_records :
    mergedContent "{name}" "FILE: {name}"
      [⟨"x.txt", "1"⟩, ⟨"y.txt", "2"⟩] = "FILE: x.txt\n1\n\nFILE: y.txt\n2" := by
  decide

/-- Reinserting the removed element at its removal position restores
the list. -/
theorem insertIdx_getElem_eraseIdx :
    ∀ (l : List FileData) (n : Nat) (h : n < l.length),
      (l.eraseIdx n).insertIdx n l[n] = l
  | a :: as, 0, _ => by simp [List.eraseIdx, List.insertIdx_zero]
  | a :: as, n + 1, h => by
    have ih := insertIdx_getElem_eraseIdx as n (by simpa using h)
    simp only [List.eraseIdx, List.insertIdx_succ_cons, List.getElem_cons_succ]
    rw [ih]

/-- C2: for valid distinct indices a and b, reorder(a,b) followed by
reorder(b,a) restores the original store, under the splice-out,
splice-in semantics of handleReorder. -/
theorem reorder_reorder_inverse (l : List FileData) (a b : Nat)
    (ha : a < l.length) (hb : b < l.length) (hab : a ≠ b) :
    handleReorder (handleReorder l a b) b a = l := by
  have hba : b ≤ (l.eraseIdx a).length := by
    rw [List.length_eraseIdx, if_pos ha]
    omega
  have h1 : handleReorder l a b = (l.eraseIdx a).insertIdx b l[a] := by
    unfold handleReorder
    rw [List.getElem?_eq_getElem ha]
  have hlen : ((l.eraseIdx a).insertIdx b l[a]).length = l.length := by
    rw [List.length_insertIdx b _ hba, List.length_eraseIdx, if_pos ha]
    omega
  have hbl : b < ((l.eraseIdx a).insertIdx b l[a]).length := by omega
  have h2 : ((l.eraseIdx a).insertIdx b l[a])[b]? = some l[a] := by
    rw [List.getElem?_eq_getElem hbl, List.getElem_insertIdx_self _ _ _ hba]
  rw [h1]
  unfold handleReorder
  rw [h2, List.eraseIdx_insertIdx]
  exact insertIdx_getElem_eraseIdx l a ha

/-- C2 witness: the inverse law applied to a concrete three-record
store with a = 0, b = 2. -/
theorem reorder_reorder_inverse_witness :
    handleReorder (handleReorder [⟨"a", "1"⟩, ⟨"b", "2"⟩, ⟨"c", "3"⟩] 0 2) 2 0 =
      [⟨"a", "1"⟩, ⟨"b", "2"⟩, ⟨"c", "3"⟩] :=
  reorder_reorder_inverse [⟨"a", "1"⟩, ⟨"b", "2"⟩, ⟨"c", "3"⟩] 0 2
    (by decide) (by decide) (by decide)

/-- C9: moveUp(0) and moveDown(n-1) leave the store unchanged; for any
other valid index, moveUp swaps positions i-1 and i and moveDown swaps
positions i and i+1, leaving every other position unchanged. -/
theorem moveUp_moveDown_spec :
    (∀ l : List FileData, handleMoveUp l 0 = l)
    ∧ (∀ l : List FileData, l ≠ [] → handleMoveDown l (l.length - 1) = l)
    ∧ (∀ (l : List FileData) (i : Nat), 0 < i → i < l.length →
        (handleMoveUp l i).length = l.length ∧
        ∀ j : Nat, (handleMoveUp l i)[j]? =
          if j = i - 1 then l[i]? else if j = i then l[i - 1]? else l[j]?)
    ∧ (∀ (l : List FileData) (i : Nat), i + 1 < l.length →
        (handleMoveDown l i).length = l.length ∧
        ∀ j : Nat, (handleMoveDown l i)[j]? =
          if j = i then l[i + 1]? else if j = i + 1 then l[i]? else l[j]?) := by
  refine ⟨fun l => by simp [handleMoveUp], fun l hl => ?_, fun l i h0 hi => ?_, fun l i hi => ?_⟩
  · have h1 : 0 < l.length := List.length_pos.mpr hl
    unfold handleMoveDown
    rw [if_pos (by omega)]
  · have hi1 : i - 1 < l.length := by omega
    unfold handleMoveUp
    rw [if_neg (by omega), List.getElem?_eq_getElem hi1, List.getElem?_eq_getElem hi]
    constructor
    · simp
    · intro j
      simp only [List.getElem?_set, List.length_set]
      split_ifs <;>
        first
          | rfl
          | omega
          | rw [List.getElem?_eq_getElem hi1]
          | rw [List.getElem?_eq_getElem hi]
          | rw [List.getElem?_eq_getElem (show j < l.length by omega)]
  · have h1 : i < l.length := by omega
    unfold handleMoveDown
    rw [if_neg (by omega), List.getElem?_eq_getElem h1, List.getElem?_eq_getElem hi]
    constructor
    · simp
    · intro j
      simp only [List.getElem?_set, List.length_set]
      split_ifs <;>
        first
          | rfl
          | omega
          | rw [List.getElem?_eq_getElem hi]
          | rw [List.getElem?_eq_getElem h1]
          | rw [List.getElem?_eq_getElem (show j < l.length by omega)]

/-- C9 witness: the move laws applied to a concrete three-record store
at index 1. -/
theorem moveUp_moveDown_spec_witness :
    handleMoveUp [⟨"a", "1"⟩, ⟨"b", "2"⟩, ⟨"c", "3"⟩] 0 = [⟨"a", "1"⟩, ⟨"b", "2"⟩, ⟨"c", "3"⟩]
    ∧ handleMoveDown [⟨"a", "1"⟩, ⟨"b", "2"⟩, ⟨"c", "3"⟩] 2 = [⟨"a", "1"⟩, ⟨"b", "2"⟩, ⟨"c", "3"⟩]
    ∧ (handleMoveUp [⟨"a", "1"⟩, ⟨"b", "2"⟩, ⟨"c", "3"⟩] 1)[0]? = some ⟨"b", "2"⟩
    ∧ (handleMoveDown [⟨"a", "1"⟩, ⟨"b", "2"⟩, ⟨"c", "3"⟩] 1)[2]? = some ⟨"b", "2"⟩ := by
  refine ⟨moveUp_moveDown_spec.1 _, ?_, ?_, ?_⟩
  · exact moveUp_moveDown_spec.2.1 [⟨"a", "1"⟩, ⟨"b", "2"⟩, ⟨"c", "3"⟩] (by decide)
  · have h := (moveUp_moveDown_spec.2.2.1 [⟨"a", "1"⟩, ⟨"b", "2"⟩, ⟨"c", "3"⟩] 1
      (by decide) (by decide)).2 0
    simpa using h
  · have h := (moveUp_moveDown_spec.2.2.2 [⟨"a", "1"⟩, ⟨"b", "2"⟩, ⟨"c", "3"⟩] 1
      (by decide)).2 2
    simpa using h

/-- contains on index lists agrees with membership. -/
theorem contains_true_iff (is : List Nat) (m : Nat) : is.contains m = true ↔ m ∈ is :=
  List.elem_iff

/-- handleRemoveMultiple is the position-indexed recursion removeManyAux
started at position 0. -/
theorem removeMany_eq_aux (indices : List Nat) :
    ∀ (l : List FileData) (k : Nat),
      ((List.enumFrom k l).filter fun p => !(indices.contains p.1)).map Prod.snd
        = removeManyAux indices k l
  | [], _ => rfl
  | a :: l, k => by
    have ih := removeMany_eq_aux indices l (k + 1)
    simp only [List.elem_eq_mem] at ih
    by_cases h : k ∈ indices
    · simp [List.enumFrom, List.filter_cons, removeManyAux, h, ih]
    · simp [List.enumFrom, List.filter_cons, removeManyAux, h, ih]

/-- Index lists that agree on all positions from k upward remove the
same records. -/
theorem removeManyAux_congr (is1 is2 : List Nat) :
    ∀ (l : List FileData) (k : Nat),
      (∀ m, k ≤ m → is1.contains m = is2.contains m) →
      removeManyAux is1 k l = removeManyAux is2 k l
  | [], _, _ => rfl
  | a :: l, k, h => by
    simp only [removeManyAux, h k le_rfl]
    have ih := removeManyAux_congr is1 is2 l (k + 1) fun m hm => h m (by omega)
    by_cases hc : is2.contains k <;> simp [hc, ih]

/-- Removing indices that all lie below the running position removes
nothing. -/
theorem removeManyAux_of_small (indices : List Nat) :
    ∀ (l : List FileData) (k : Nat),
      (∀ i ∈ indices, i < k) → removeManyAux indices k l = l
  | [], _, _ => rfl
  | a :: l, k, h => by
    have hc : k ∉ indices := fun hk => absurd (h k hk) (by omega)
    have ih := removeManyAux_of_small indices l (k + 1) fun i hi => by have := h i hi; omega
    simp [removeManyAux, hc, ih]

/-- Removing the largest index first and then the remaining (smaller)
indices equals removing them all in one pass. -/
theorem removeManyAux_step (j : Nat) (rest : List Nat) (hrest : ∀ i ∈ rest, i < j) :
    ∀ (l : List FileData) (k : Nat),
      removeManyAux (j :: rest) k l = removeManyAux rest k (removeManyAux [j] k l)
  | [], _ => rfl
  | a :: l, k => by
    by_cases hkj : k = j
    · subst hkj
      have h1 : (k :: rest).contains k = true := by
        rw [contains_true_iff]
        exact List.mem_cons_self _ _
      have h2 : ([k] : List Nat).contains k = true := by
        rw [contains_true_iff]
        exact List.mem_cons_self _ _
      have e1 := removeManyAux_of_small [k] l (k + 1) (by simp)
      have e2 := removeManyAux_congr (k :: rest) rest l (k + 1)
        (fun m hm => by
          simp only [List.contains_cons]
          have hmk : (m == k) = false := by
            rw [Bool.eq_false_iff, Ne, beq_iff_eq]
            omega
          simp [hmk])
      have e3 := removeManyAux_of_small rest l (k + 1)
        (fun i hi => by have := hrest i hi; omega)
      have e4 := removeManyAux_of_small rest l k
        (fun i hi => by have := hrest i hi; omega)
      simp [removeManyAux, h1, h2, e1, e2, e3, e4]
    · have ih := removeManyAux_step j rest hrest l (k + 1)
      by_cases hc : k ∈ rest
      · simp [removeManyAux, hkj, hc, ih]
      · simp [removeManyAux, hkj, hc, ih]

/-- Removing a single index is removeMany of the singleton list. -/
theorem removeFile_eq_removeMany (l : List FileData) (index : Nat) :
    handleRemoveFile l index = handleRemoveMultiple l [index] := by
  unfold handleRemoveFile handleRemoveMultiple
  congr 1
  apply List.filter_congr
  intro p _
  by_cases hp : p.1 = index
  · simp [List.contains_cons, bne, hp]
  · have hp' : (p.1 == index) = false := by
      rw [beq_eq_false_iff_ne]
      exact hp
    simp [List.contains_cons, bne, hp, hp']

/-- C3: handleRemoveMultiple depends only on the set of listed indices,
keeps the surviving records as a sublist (relative order preserved), and
for indices listed in strictly decreasing order equals the fold of the
single-index remove from the highest index down to the lowest. -/
theorem removeMany_spec :
    (∀ (l : List FileData) (is1 is2 : List Nat),
        (∀ i, i ∈ is1 ↔ i ∈ is2) →
        handleRemoveMultiple l is1 = handleRemoveMultiple l is2)
    ∧ (∀ (l : List FileData) (indices : List Nat),
        (handleRemoveMultiple l indices).Sublist l)
    ∧ (∀ indices : List Nat, indices.Pairwise (· > ·) →
        ∀ l : List FileData,
          handleRemoveMultiple l indices = indices.foldl handleRemoveFile l) := by
  have hbridge : ∀ (l : List FileData) (indices : List Nat),
      handleRemoveMultiple l indices = removeManyAux indices 0 l := fun l indices => by
    unfold handleRemoveMultiple
    rw [show l.enum = List.enumFrom 0 l from rfl]
    exact removeMany_eq_aux indices l 0
  refine ⟨fun l is1 is2 h => ?_, fun l indices => ?_, fun indices hp => ?_⟩
  · rw [hbridge, hbridge]
    apply removeManyAux_congr
    intro m _
    by_cases h1 : m ∈ is1
    · rw [(contains_true_iff is1 m).mpr h1, Eq.comm, contains_true_iff]
      exact (h m).mp h1
    · have h2 : m ∉ is2 := fun hm => h1 ((h m).mpr hm)
      rw [Bool.eq_false_iff.mpr (fun hc => h1 ((contains_true_iff is1 m).mp hc)),
        Eq.comm, Bool.eq_false_iff]
      exact fun hc => h2 ((contains_true_iff is2 m).mp hc)
  · have h1 : ((l.enum.filter fun p => !(indices.contains p.1)).map Prod.snd).Sublist
        (l.enum.map Prod.snd) := List.Sublist.map _ (List.filter_sublist _)
    rw [List.enum_map_snd] at h1
    exact h1
  · induction hp with
    | nil =>
      intro l
      rw [hbridge]
      exact removeManyAux_of_small [] l 0 (by simp)
    | @cons j rest hj _ ih =>
      intro l
      rw [hbridge, removeManyAux_step j rest hj, ← hbridge, ← hbridge,
        ← removeFile_eq_removeMany, List.foldl_cons]
      exact ih (handleRemoveFile l j)

/-- C3 witness: the three removeMany laws applied to a concrete
three-record store, with index set listed as both 0,2 and 2,0,0 and the
descending fold at 2,0. -/
theorem removeMany_spec_witness :
    handleRemoveMultiple [⟨"a", "1"⟩, ⟨"b", "2"⟩, ⟨"c", "3"⟩] [0, 2]
        = handleRemoveMultiple [⟨"a", "1"⟩, ⟨"b", "2"⟩, ⟨"c", "3"⟩] [2, 0, 0]
    ∧ (handleRemoveMultiple [⟨"a", "1"⟩, ⟨"b", "2"⟩, ⟨"c", "3"⟩] [0, 2]).Sublist
        [⟨"a", "1"⟩, ⟨"b", "2"⟩, ⟨"c", "3"⟩]
    ∧ handleRemoveMultiple [⟨"a", "1"⟩, ⟨"b", "2"⟩, ⟨"c", "3"⟩] [2, 0]
        = [2, 0].foldl handleRemoveFile [⟨"a", "1"⟩, ⟨"b", "2"⟩, ⟨"c", "3"⟩] :=
  ⟨removeMany_spec.1 _ [0, 2] [2, 0, 0] (by intro i; constructor <;> (intro h; simp at h; simp; omega)),
    removeMany_spec.2.1 _ [0, 2],
    removeMany_spec.2.2 [2, 0] (by decide) _⟩

/-- C7 counterexample: moveUp at index 0 is an early return that never
sets a new files array, so the selection survives; the claim that every
listed mutation resets the selection to empty fails at this input. -/
theorem dispatch_moveUp_zero_keeps_selection :
    (dispatch ⟨[⟨"a.txt", "x"⟩], {0}⟩ (.moveUp 0)).selectedIndices = {0}
    ∧ ({0} : Finset Nat) ≠ ∅ := by
  constructor
  · rfl
  · decide

/-- C7 (amended): every dispatched store operation either resets the
selection to empty or is one of the two guarded no-ops (moveUp at 0,
moveDown at the last index), which leave the whole state unchanged; in
either case a selection of valid indices stays valid. -/
theorem dispatch_selection_reset (s : AppState) (op : StoreOp)
    (hvalid : ∀ i ∈ s.selectedIndices, i < s.filesData.length) :
    ((dispatch s op).selectedIndices = ∅ ∨ dispatch s op = s)
    ∧ (∀ i ∈ (dispatch s op).selectedIndices, i < (dispatch s op).filesData.length) := by
  have hmain : (dispatch s op).selectedIndices = ∅ ∨ dispatch s op = s := by
    cases op with
    | append batch => exact Or.inl rfl
    | moveUp i =>
      by_cases h : i = 0
      · exact Or.inr (by simp [dispatch, h])
      · exact Or.inl (by simp [dispatch, h])
    | moveDown i =>
      by_cases h : (i : Int) = (s.filesData.length : Int) - 1
      · exact Or.inr (by simp [dispatch, h])
      · exact Or.inl (by simp [dispatch, h])
    | removeOne i => exact Or.inl rfl
    | removeMany indices => exact Or.inl rfl
    | reorder fromIndex toIndex => exact Or.inl rfl
    | clear => exact Or.inl rfl
  refine ⟨hmain, fun i hi => ?_⟩
  rcases hmain with h | h
  · rw [h] at hi
    exact absurd hi (Finset.not_mem_empty i)
  · rw [h] at hi ⊢
    exact hvalid i hi

/-- C7 witness: the amended law applied to a concrete one-record state
with selection {0} under a reorder. -/
theorem dispatch_selection_reset_witness :
    (dispatch ⟨[⟨"a.txt", "x"⟩], {0}⟩ (.reorder 0 0)).selectedIndices = ∅ ∨
      dispatch ⟨[⟨"a.txt", "x"⟩], {0}⟩ (.reorder 0 0) = ⟨[⟨"a.txt", "x"⟩], {0}⟩ :=
  (dispatch_selection_reset ⟨[⟨"a.txt", "x"⟩], {0}⟩ (.reorder 0 0) (by decide)).1

/-- C8: an unopenable archive contributes exactly one placeholder
record named after the upload itself; each blob's contribution is
independent of its batch neighbours; a single failing entry inside an
openable archive contributes its placeholder record while the remaining
entries are processed normally. -/
theorem ingestion_error_handling :
    (∀ b : UploadBlob, isZipTyped b = true → b.zipResult = none →
        processBlob b = [⟨b.name, "[Error: Failed to unzip file]"⟩])
    ∧ (∀ (pre post : List UploadBlob) (b : UploadBlob),
        processFiles (pre ++ b :: post)
          = processFiles pre ++ processBlob b ++ processFiles post)
    ∧ (∀ (b : UploadBlob) (pre post : List ZipEntry) (e : ZipEntry),
        isZipTyped b = true → b.zipResult = some (pre ++ e :: post) →
        e.dir = false → isJunkPath e.relativePath = false → e.content = none →
        processBlob b = pre.filterMap processEntry
          ++ ⟨e.relativePath, "[Error reading file content inside zip]"⟩
            :: post.filterMap processEntry) := by
  refine ⟨fun b h1 h2 => ?_, fun pre post b => ?_, fun b pre post e h1 h2 h3 h4 h5 => ?_⟩
  · simp [processBlob, h1, h2]
  · simp [processFiles]
  · simp [processBlob, h1, h2, List.filterMap_append, List.filterMap_cons,
      processEntry, h3, h4, h5]

/-- C8 witness: a corrupt archive, flanked by two plain uploads, and an
openable archive with one undecodable entry between two good ones. -/
theorem ingestion_error_handling_witness :
    processBlob ⟨"broken.zip", "application/zip", none, none⟩
        = [⟨"broken.zip", "[Error: Failed to unzip file]"⟩]
    ∧ processFiles [⟨"a.txt", "text/plain", none, some "A"⟩,
        ⟨"broken.zip", "application/zip", none, none⟩,
        ⟨"b.txt", "text/plain", none, some "B"⟩]
        = processFiles [⟨"a.txt", "text/plain", none, some "A"⟩]
          ++ processBlob ⟨"broken.zip", "application/zip", none, none⟩
          ++ processFiles [⟨"b.txt", "text/plain", none, some "B"⟩]
    ∧ processBlob ⟨"ok.zip", "", some [⟨"a.txt", false, some "A"⟩,
        ⟨"bad.bin", false, none⟩, ⟨"b.txt", false, some "B"⟩], none⟩
        = [⟨"a.txt", "A"⟩, ⟨"bad.bin", "[Error reading file content inside zip]"⟩,
            ⟨"b.txt", "B"⟩] := by
  refine ⟨ingestion_error_handling.1 _ (by decide) rfl, ?_, ?_⟩
  · exact ingestion_error_handling.2.1
      [⟨"a.txt", "text/plain", none, some "A"⟩]
      [⟨"b.txt", "text/plain", none, some "B"⟩]
      ⟨"broken.zip", "application/zip", none, none⟩
  · have h := ingestion_error_handling.2.2
      ⟨"ok.zip", "", some [⟨"a.txt", false, some "A"⟩, ⟨"bad.bin", false, none⟩,
        ⟨"b.txt", false, some "B"⟩], none⟩
      [⟨"a.txt", false, some "A"⟩] [⟨"b.txt", false, some "B"⟩]
      ⟨"bad.bin", false, none⟩
      (by decide) rfl rfl (by decide) rfl
    rw [h]
    decide

/-- lexLE is total. -/
theorem lexLE_total : ∀ a b : List Char, lexLE a b = true ∨ lexLE b a = true
  | [], _ => Or.inl rfl
  | _ :: _, [] => Or.inr rfl
  | x :: xs, y :: ys => by
    simp only [lexLE]
    rcases Nat.lt_trichotomy x.toNat y.toNat with h | h | h
    · left
      simp [h]
    · have h1 : ¬x.toNat < y.toNat := by omega
      have h2 : ¬y.toNat < x.toNat := by omega
      rcases lexLE_total xs ys with ih | ih
      · left
        simp [h1, h2, ih]
      · right
        simp [h1, h2, ih]
    · right
      simp [h]

/-- lexLE is transitive. -/
theorem lexLE_trans : ∀ a b c : List Char,
    lexLE a b = true → lexLE b c = true → lexLE a c = true
  | [], _, _, _, _ => rfl
  | _ :: _, [], _, h1, _ => by simp [lexLE] at h1
  | _ :: _, _ :: _, [], _, h2 => by simp [lexLE] at h2
  | x :: xs, y :: ys, z :: zs, h1, h2 => by
    simp only [lexLE] at h1 h2 ⊢
    by_cases hxy : x.toNat < y.toNat
    · by_cases hyz : y.toNat < z.toNat
      · simp [show x.toNat < z.toNat by omega]
      · by_cases hzy : z.toNat < y.toNat
        · simp [hyz, hzy] at h2
        · simp [show x.toNat < z.toNat by omega]
    · by_cases hyx : y.toNat < x.toNat
      · simp [hxy, hyx] at h1
      · simp only [if_neg hxy, if_neg hyx] at h1
        by_cases hyz : y.toNat < z.toNat
        · simp [show x.toNat < z.toNat by omega]
        · by_cases hzy : z.toNat < y.toNat
          · simp [hyz, hzy] at h2
          · simp only [if_neg hyz, if_neg hzy] at h2
            have hxz : ¬x.toNat < z.toNat := by omega
            have hzx : ¬z.toNat < x.toNat := by omega
            simp only [if_neg hxz, if_neg hzx]
            exact lexLE_trans xs ys zs h1 h2

instance : IsTotal TreeNode rLE where
  total a b := by
    unfold rLE nodeLE
    cases ha : a.isFolder <;> cases hb : b.isFolder
    · simpa [nameLE] using lexLE_total a.name.data b.name.data
    · simp
    · simp
    · simpa [nameLE] using lexLE_total a.name.data b.name.data

instance : IsTrans TreeNode rLE where
  trans a b c hab hbc := by
    unfold rLE nodeLE at hab hbc ⊢
    cases ha : a.isFolder <;> cases hb : b.isFolder <;> cases hc : c.isFolder <;>
      simp_all [nameLE] <;>
      exact lexLE_trans _ _ _ hab hbc

instance : IsTotal (String × PathTrie) rEntryLE where
  total a b := by
    obtain ⟨ka, va⟩ := a
    obtain ⟨kb, vb⟩ := b
    unfold rEntryLE entryLE
    cases va <;> cases vb
    · simpa [nameLE] using lexLE_total ka.data kb.data
    · simp
    · simp
    · simpa [nameLE] using lexLE_total ka.data kb.data

instance : IsTrans (String × PathTrie) rEntryLE where
  trans a b c hab hbc := by
    obtain ⟨ka, va⟩ := a
    obtain ⟨kb, vb⟩ := b
    obtain ⟨kc, vc⟩ := c
    unfold rEntryLE entryLE at hab hbc ⊢
    cases va <;> cases vb <;> cases vc <;>
      simp_all [nameLE] <;>
      exact lexLE_trans _ _ _ hab hbc

/-- sortForest maps sortTree over the forest. -/
theorem sortForest_eq_map : ∀ ts : List TreeNode, sortForest ts = ts.map sortTree
  | [] => rfl
  | t :: ts => by
    simp only [sortForest, List.map_cons]
    rw [sortForest_eq_map ts]

/-- A pairwise-ordered list passes the adjacent-pairs check. -/
theorem pairwiseNodeLE_of_pairwise :
    ∀ l : List TreeNode, List.Pairwise rLE l → pairwiseNodeLE l = true
  | [], _ => rfl
  | [_], _ => rfl
  | a :: b :: t, h => by
    simp only [pairwiseNodeLE, Bool.and_eq_true]
    obtain ⟨ha, hrest⟩ := List.pairwise_cons.mp h
    exact ⟨ha b (by simp), pairwiseNodeLE_of_pairwise (b :: t) hrest⟩

/-- allSortedForest checks allSortedNode on every member. -/
theorem allSortedForest_iff :
    ∀ ts : List TreeNode, allSortedForest ts = true ↔ ∀ t ∈ ts, allSortedNode t = true
  | [] => by simp [allSortedForest]
  | t :: ts => by
    simp [allSortedForest, Bool.and_eq_true, allSortedForest_iff ts]

/-- sortTree produces recursively sorted trees (size-bounded helper for
the induction). -/
theorem allSorted_sortTree_bounded :
    ∀ (n : Nat) (t : TreeNode), sizeOf t ≤ n → allSortedNode (sortTree t) = true := by
  intro n
  induction n with
  | zero =>
    intro t ht
    obtain ⟨nm, p, f, ch, fi⟩ := t
    simp [TreeNode.mk.sizeOf_spec] at ht
  | succ n ih =>
    intro t ht
    obtain ⟨nm, p, f, ch, fi⟩ := t
    show (pairwiseNodeLE (List.insertionSort rLE (sortForest ch))
        && allSortedForest (List.insertionSort rLE (sortForest ch))) = true
    rw [Bool.and_eq_true]
    constructor
    · exact pairwiseNodeLE_of_pairwise _ (List.sorted_insertionSort rLE _)
    · rw [allSortedForest_iff]
      intro x hx
      have hx' : x ∈ sortForest ch := (List.perm_insertionSort rLE _).mem_iff.mp hx
      rw [sortForest_eq_map] at hx'
      obtain ⟨c, hc, rfl⟩ := List.mem_map.mp hx'
      apply ih
      have h1 : sizeOf c < sizeOf ch := List.sizeOf_lt_of_mem hc
      have h2 : sizeOf ch < sizeOf (TreeNode.mk nm p f ch fi) := by
        simp [TreeNode.mk.sizeOf_spec]
        omega
      omega

/-- sortTree produces recursively sorted trees. -/
theorem allSorted_sortTree (t : TreeNode) : allSortedNode (sortTree t) = true :=
  allSorted_sortTree_bounded (sizeOf t) t le_rfl

/-- C4: on the store with paths a/b.txt, a/c.txt, z.txt the Tree
Builder yields exactly one root folder a with file children b.txt then
c.txt followed by the root file z.txt; and for every store the root
list and every folder's children list are ordered folder-first with
name comparison inside each group, recursively. -/
theorem tree_builder_spec :
    (treeStructure [⟨"a/b.txt", "1"⟩, ⟨"a/c.txt", "2"⟩, ⟨"z.txt", "3"⟩]
      = [TreeNode.mk "a" "a" true
          [TreeNode.mk "b.txt" "a/b.txt" false [] (some 0),
           TreeNode.mk "c.txt" "a/c.txt" false [] (some 1)] none,
         TreeNode.mk "z.txt" "z.txt" false [] (some 2)])
    ∧ (∀ files : List FileData,
        pairwiseNodeLE (treeStructure files) = true
        ∧ allSortedForest (treeStructure files) = true) := by
  constructor
  · rfl
  · intro files
    constructor
    · exact pairwiseNodeLE_of_pairwise _ (List.sorted_insertionSort rLE _)
    · rw [allSortedForest_iff]
      intro x hx
      have hx' : x ∈ sortForest (buildForest files) :=
        (List.perm_insertionSort rLE _).mem_iff.mp hx
      rw [sortForest_eq_map] at hx'
      obtain ⟨c, _, rfl⟩ := List.mem_map.mp hx'
      exact allSorted_sortTree c

/-- C6: the Structure Renderer on the three-path store emits exactly
the claimed ASCII tree: a "." root line, tee glyphs for non-last
siblings, corner glyphs for last siblings, and continuation-bar or
blank ancestor prefixes. -/
theorem structure_renderer_example :
    treeString [⟨"a/b.txt", "1"⟩, ⟨"a/c.txt", "2"⟩, ⟨"z.txt", "3"⟩]
      = ".\n├── a\n│   ├── b.txt\n│   └── c.txt\n└── z.txt" := by
  rfl

/-- Membership after folding insert over a list of indices. -/
theorem foldl_insert_mem :
    ∀ (idxs : List Nat) (sel : Finset Nat) (x : Nat),
      (x ∈ idxs.foldl (fun s i => insert i s) sel) ↔ x ∈ sel ∨ x ∈ idxs
  | [], sel, x => by simp
  | i :: is, sel, x => by
    simp only [List.foldl_cons, foldl_insert_mem is, Finset.mem_insert, List.mem_cons]
    tauto

/-- Membership after folding erase over a list of indices. -/
theorem foldl_erase_mem :
    ∀ (idxs : List Nat) (sel : Finset Nat) (x : Nat),
      (x ∈ idxs.foldl (fun s i => s.erase i) sel) ↔ x ∈ sel ∧ x ∉ idxs
  | [], sel, x => by simp
  | i :: is, sel, x => by
    simp only [List.foldl_cons, foldl_erase_mem is, Finset.mem_erase, List.mem_cons]
    tauto

/-- C5: with L the set of leaf store indices under a node and s the
number of selected elements of L, the status is unchecked exactly when
L is empty or s = 0, checked exactly when L is nonempty and s = |L|,
indeterminate otherwise; toggling a partially selected node selects all
of L, and toggling a fully selected node deselects all of L. -/
theorem selection_tristate_spec (sel : Finset Nat) (node : TreeNode) :
    (getSelectionStatus sel node = SelStatus.unchecked ↔
      ((getAllIndicesUnderNode node).toFinset = ∅
        ∨ ((getAllIndicesUnderNode node).toFinset ∩ sel).card = 0))
    ∧ (getSelectionStatus sel node = SelStatus.checked ↔
      ((getAllIndicesUnderNode node).toFinset ≠ ∅
        ∧ ((getAllIndicesUnderNode node).toFinset ∩ sel).card
            = (getAllIndicesUnderNode node).toFinset.card))
    ∧ (getSelectionStatus sel node = SelStatus.indeterminate ↔
      (0 < ((getAllIndicesUnderNode node).toFinset ∩ sel).card
        ∧ ((getAllIndicesUnderNode node).toFinset ∩ sel).card
            < (getAllIndicesUnderNode node).toFinset.card))
    ∧ (0 < ((getAllIndicesUnderNode node).toFinset ∩ sel).card →
        ((getAllIndicesUnderNode node).toFinset ∩ sel).card
            < (getAllIndicesUnderNode node).toFinset.card →
        ∀ i ∈ (getAllIndicesUnderNode node).toFinset, i ∈ toggleSelection sel node)
    ∧ (((getAllIndicesUnderNode node).toFinset ∩ sel).card
          = (getAllIndicesUnderNode node).toFinset.card →
        ∀ i ∈ (getAllIndicesUnderNode node).toFinset, i ∉ toggleSelection sel node) := by
  set idxs := getAllIndicesUnderNode node with hidxs
  set L := idxs.toFinset with hLdef
  set s := (L ∩ sel).card with hsdef
  have hsle : s ≤ L.card := Finset.card_le_card Finset.inter_subset_left
  have hlen0 : idxs.length = 0 ↔ L = ∅ := by
    rw [List.length_eq_zero, hLdef, List.toFinset_eq_empty_iff]
  have hforall0 : (∀ i ∈ idxs, i ∉ sel) ↔ s = 0 := by
    rw [hsdef, Finset.card_eq_zero, Finset.eq_empty_iff_forall_not_mem]
    constructor
    · intro h x hx
      rw [Finset.mem_inter, hLdef, List.mem_toFinset] at hx
      exact h x hx.1 hx.2
    · intro h i hi hisel
      exact h i (by rw [Finset.mem_inter, hLdef, List.mem_toFinset]; exact ⟨hi, hisel⟩)
  have hsubL : L ⊆ sel ↔ s = L.card := by
    constructor
    · intro h
      rw [hsdef, Finset.inter_eq_left.mpr h]
    · intro h
      have h1 : L ∩ sel = L :=
        Finset.eq_of_subset_of_card_le Finset.inter_subset_left (le_of_eq h.symm)
      exact Finset.inter_eq_left.mp h1
  have hforallAll : (∀ i ∈ idxs, i ∈ sel) ↔ s = L.card := by
    rw [← hsubL]
    constructor
    · intro h x hx
      rw [hLdef, List.mem_toFinset] at hx
      exact h x hx
    · intro h i hi
      exact h (by rw [hLdef, List.mem_toFinset]; exact hi)
  have hfilter0 : ((idxs.filter fun i => decide (i ∈ sel)).length = 0) ↔ s = 0 := by
    rw [List.length_eq_zero, List.filter_eq_nil_iff, ← hforall0]
    simp
  have hfilterAll :
      ((idxs.filter fun i => decide (i ∈ sel)).length = idxs.length) ↔ s = L.card := by
    rw [List.filter_length_eq_length, ← hforallAll]
    simp
  have hstat : getSelectionStatus sel node =
      (if idxs.length = 0 then SelStatus.unchecked
       else if (idxs.filter fun i => decide (i ∈ sel)).length = 0 then SelStatus.unchecked
       else if (idxs.filter fun i => decide (i ∈ sel)).length = idxs.length then
         SelStatus.checked
       else SelStatus.indeterminate) := rfl
  have htoggle : toggleSelection sel node =
      (if idxs.all fun i => decide (i ∈ sel) then
        idxs.foldl (fun t i => t.erase i) sel
       else idxs.foldl (fun t i => insert i t) sel) := rfl
  by_cases h0 : idxs.length = 0
  · have hLe : L = ∅ := hlen0.mp h0
    have hs0 : s = 0 := by
      have : L.card = 0 := by rw [hLe]; rfl
      omega
    rw [hstat, if_pos h0]
    refine ⟨by simp [hLe], ?_, ?_, ?_, ?_⟩
    · simp only [hLe]
      constructor
      · intro h
        cases h
      · rintro ⟨hne, _⟩
        exact absurd rfl hne
    · constructor
      · intro h
        cases h
      · rintro ⟨hpos, _⟩
        omega
    · intro hpos
      omega
    · intro _ i hi
      rw [hLe] at hi
      exact absurd hi (Finset.not_mem_empty i)
  · have hLne : L ≠ ∅ := fun h => h0 (hlen0.mpr h)
    by_cases hz : (idxs.filter fun i => decide (i ∈ sel)).length = 0
    · have hs0 : s = 0 := hfilter0.mp hz
      have hcard : L.card ≠ 0 := fun h => hLne (Finset.card_eq_zero.mp h)
      rw [hstat, if_neg h0, if_pos hz]
      refine ⟨by simp [hs0], ?_, ?_, ?_, ?_⟩
      · constructor
        · intro h
          cases h
        · rintro ⟨_, hcards⟩
          omega
      · constructor
        · intro h
          cases h
        · rintro ⟨hpos, _⟩
          omega
      · intro hpos
        omega
      · intro hcards
        omega
    · have hspos : s ≠ 0 := fun h => hz (hfilter0.mpr h)
      by_cases hall : (idxs.filter fun i => decide (i ∈ sel)).length = idxs.length
      · have hsL : s = L.card := hfilterAll.mp hall
        have hallsel : ∀ i ∈ idxs, i ∈ sel := hforallAll.mpr hsL
        have hallb : (idxs.all fun i => decide (i ∈ sel)) = true := by
          rw [List.all_eq_true]
          intro x hx
          simpa using hallsel x hx
        rw [hstat, if_neg h0, if_neg hz, if_pos hall]
        refine ⟨?_, by simp [hLne, hsL], ?_, ?_, ?_⟩
        · constructor
          · intro h
            cases h
          · intro h
            rcases h with h | h
            · exact absurd h hLne
            · exact absurd h hspos
        · constructor
          · intro h
            cases h
          · rintro ⟨_, hlt⟩
            omega
        · intro _ hlt
          omega
        · intro _ i hi
          rw [htoggle, if_pos hallb, foldl_erase_mem]
          rw [hLdef, List.mem_toFinset] at hi
          rintro ⟨_, hnot⟩
          exact hnot hi
      · have hsne : s ≠ L.card := fun h => hall (hfilterAll.mpr h)
        have hallb : (idxs.all fun i => decide (i ∈ sel)) = false := by
          rw [Bool.eq_false_iff, Ne, List.all_eq_true]
          intro h
          apply hsne
          rw [← hforallAll]
          intro x hx
          simpa using h x hx
        rw [hstat, if_neg h0, if_neg hz, if_neg hall]
        refine ⟨?_, ?_, by simp; omega, ?_, ?_⟩
        · constructor
          · intro h
            cases h
          · intro h
            rcases h with h | h
            · exact absurd h hLne
            · exact absurd h hspos
        · constructor
          · intro h
            cases h
          · rintro ⟨_, hcards⟩
            exact absurd hcards hsne
        · intro _ _ i hi
          rw [htoggle, if_neg (by simp [hallb]), foldl_insert_mem]
          rw [hLdef, List.mem_toFinset] at hi
          exact Or.inr hi
        · intro hcards
          exact absurd hcards hsne

/-- C5 witness: a folder with two file leaves and selection {0}: the
status is indeterminate and toggling selects the unselected leaf 1. -/
theorem selection_tristate_spec_witness :
    getSelectionStatus {0}
        (TreeNode.mk "a" "a" true
          [TreeNode.mk "b" "a/b" false [] (some 0),
           TreeNode.mk "c" "a/c" false [] (some 1)] none) = SelStatus.indeterminate
    ∧ (1 : Nat) ∈ toggleSelection {0}
        (TreeNode.mk "a" "a" true
          [TreeNode.mk "b" "a/b" false [] (some 0),
           TreeNode.mk "c" "a/c" false [] (some 1)] none) := by
  constructor
  · exact (selection_tristate_spec {0} _).2.2.1.mpr ⟨by decide, by decide⟩
  · exact (selection_tristate_spec {0} _).2.2.2.1 (by decide) (by decide) 1 (by decide)

/-- Splitting never yields an empty field list. -/
theorem splitOnCharList_ne_nil (sep : Char) : ∀ l : List Char, splitOnCharList sep l ≠ []
  | [] => by simp [splitOnCharList]
  | c :: cs => by
    simp only [splitOnCharList]
    split_ifs
    · simp
    · cases h : splitOnCharList sep cs <;> simp

/-- Joining undoes splitting. -/
theorem joinCharLists_splitOnCharList (sep : Char) :
    ∀ l : List Char, joinCharLists sep (splitOnCharList sep l) = l
  | [] => rfl
  | c :: cs => by
    have ih := joinCharLists_splitOnCharList sep cs
    simp only [splitOnCharList]
    split_ifs with hc
    · subst hc
      obtain ⟨y, ys, hy⟩ := List.exists_cons_of_ne_nil (splitOnCharList_ne_nil c cs)
      rw [hy] at ih ⊢
      simp [joinCharLists, ih]
    · obtain ⟨y, ys, hy⟩ := List.exists_cons_of_ne_nil (splitOnCharList_ne_nil sep cs)
      rw [hy] at ih ⊢
      cases ys with
      | nil => simpa [joinCharLists] using congrArg (c :: ·) ih
      | cons z zs => simpa [joinCharLists] using congrArg (c :: ·) ih

/-- splitSlash never yields an empty segment list. -/
theorem splitSlash_ne_nil (s : String) : splitSlash s ≠ [] := by
  unfold splitSlash
  intro h
  exact splitOnCharList_ne_nil '/' s.data (List.map_eq_nil_iff.mp h)

/-- splitSlash is injective: joining the segments with '/' restores the
path. -/
theorem splitSlash_injective {a b : String} (h : splitSlash a = splitSlash b) : a = b := by
  have ha : joinSlash (splitSlash a) = a := by
    unfold joinSlash splitSlash
    rw [List.map_map]
    have : (String.data ∘ String.mk) = id := by
      funext l
      rfl
    rw [this, List.map_id, joinCharLists_splitOnCharList]
  have hb : joinSlash (splitSlash b) = b := by
    unfold joinSlash splitSlash
    rw [List.map_map]
    have : (String.data ∘ String.mk) = id := by
      funext l
      rfl
    rw [this, List.map_id, joinCharLists_splitOnCharList]
  rw [← ha, ← hb, h]

/-- The freshly created chain carries exactly the inserted index. -/
theorem nodeIndices_buildChain (idx : Nat) :
    ∀ (parts : List String) (par : String), nodeIndices (buildChain idx par parts) = [idx]
  | [], _ => rfl
  | [_], _ => rfl
  | p :: q :: rest, par => by
    show ([] : List Nat) ++ (nodeIndices (buildChain idx (childPath par p) (q :: rest)) ++ []) = [idx]
    rw [nodeIndices_buildChain idx (q :: rest) (childPath par p)]
    rfl

/-- No path is found among no children. -/
theorem hasFilePath_nil : ∀ q : List String, hasFilePath q [] = false
  | [] => rfl
  | [_] => rfl
  | _ :: _ :: _ => rfl

/-- The freshly created chain realises its own path. -/
theorem hasFilePath_buildChain (idx : Nat) :
    ∀ (parts : List String) (par : String), parts ≠ [] →
      hasFilePath parts [buildChain idx par parts] = true
  | [], _, h => absurd rfl h
  | [p], par, _ => by
    simp [buildChain, hasFilePath, TreeNode.name, TreeNode.isFolder]
  | p :: q :: rest, par, _ => by
    show hasFilePath (p :: q :: rest) [buildChain idx par (p :: q :: rest)] = true
    simp only [buildChain, hasFilePath, findFolder, TreeNode.name, TreeNode.isFolder,
      if_pos (by exact ⟨rfl, rfl⟩ : (p = p ∧ true = true))]
    exact hasFilePath_buildChain idx (q :: rest) (childPath par p) (by simp)

/-- Unfolding insertPath on empty children. -/
theorem insertPath_nil (idx : Nat) (p : String) (rest : List String) (par : String) :
    insertPath idx (p :: rest) par [] = [buildChain idx par (p :: rest)] := rfl

/-- Unfolding insertPath on a children cons cell. -/
theorem insertPath_cons (idx : Nat) (p : String) (rest : List String) (par : String)
    (c : TreeNode) (cs : List TreeNode) :
    insertPath idx (p :: rest) par (c :: cs)
      = if c.name = p ∧ c.isFolder = !rest.isEmpty then
          (match rest, c with
           | [], c => c
           | _ :: _, .mk n pth f ch fi =>
             TreeNode.mk n pth f (insertPath idx rest pth ch) fi) :: cs
        else c :: insertPath idx (p :: rest) par cs := rfl

/-- Indices of a forest are the indices of its members. -/
theorem mem_forestIndices : ∀ (ts : List TreeNode) (x : Nat),
    x ∈ forestIndices ts ↔ ∃ t ∈ ts, x ∈ nodeIndices t
  | [], x => by simp [forestIndices]
  | t :: ts, x => by
    simp only [forestIndices, List.mem_append, mem_forestIndices ts, List.mem_cons]
    constructor
    · rintro (h | ⟨u, hu, hx⟩)
      · exact ⟨t, Or.inl rfl, h⟩
      · exact ⟨u, Or.inr hu, hx⟩
    · rintro ⟨u, hu | hu, hx⟩
      · subst hu
        exact Or.inl hx
      · exact Or.inr ⟨u, hu, hx⟩

/-- Leaf indices of a forest are the leaf indices of its members. -/
theorem mem_indicesUnderForest : ∀ (ts : List TreeNode) (x : Nat),
    x ∈ indicesUnderForest ts ↔ ∃ t ∈ ts, x ∈ getAllIndicesUnderNode t
  | [], x => by simp [indicesUnderForest]
  | t :: ts, x => by
    simp only [indicesUnderForest, List.mem_append, mem_indicesUnderForest ts, List.mem_cons]
    constructor
    · rintro (h | ⟨u, hu, hx⟩)
      · exact ⟨t, Or.inl rfl, h⟩
      · exact ⟨u, Or.inr hu, hx⟩
    · rintro ⟨u, hu | hu, hx⟩
      · subst hu
        exact Or.inl hx
      · exact Or.inr ⟨u, hu, hx⟩

/-- After inserting a record's segments, the walk finds its file node. -/
theorem hasFilePath_insertPath (idx : Nat) :
    ∀ (parts : List String) (par : String) (ch : List TreeNode), parts ≠ [] →
      hasFilePath parts (insertPath idx parts par ch) = true
  | [], _, _, h => absurd rfl h
  | p :: rest, par, [], _ => by
    rw [insertPath_nil]
    exact hasFilePath_buildChain idx _ par (by simp)
  | [p], par, c :: cs, _ => by
    rw [insertPath_cons]
    by_cases hcond : c.name = p ∧ c.isFolder = !([] : List String).isEmpty
    · rw [if_pos hcond]
      show (c :: cs).any (fun d => d.name == p && d.isFolder == false) = true
      have h2 : c.isFolder = false := by simpa using hcond.2
      simp [List.any_cons, hcond.1, h2]
    · rw [if_neg hcond]
      have hcm : (c.name == p && c.isFolder == false) = false := by
        by_cases h1 : c.name = p
        · have h2 : c.isFolder = true := by
            cases hcf : c.isFolder
            · exact absurd ⟨h1, by simp [hcf]⟩ hcond
            · rfl
          simp [h1, h2]
        · simp [beq_eq_false_iff_ne.mpr h1]
      show (c :: insertPath idx [p] par cs).any
        (fun d => d.name == p && d.isFolder == false) = true
      rw [List.any_cons, hcm, Bool.false_or]
      exact hasFilePath_insertPath idx [p] par cs (by simp)
  | p :: q :: rs, par, c :: cs, _ => by
    rw [insertPath_cons]
    by_cases hcond : c.name = p ∧ c.isFolder = !(q :: rs).isEmpty
    · rw [if_pos hcond]
      obtain ⟨n, pth, f, ch', fi⟩ := c
      have hn : n = p := hcond.1
      have hf : f = true := by simpa [TreeNode.isFolder] using hcond.2
      show hasFilePath (p :: q :: rs)
        (TreeNode.mk n pth f (insertPath idx (q :: rs) pth ch') fi :: cs) = true
      rw [hn, hf]
      simp only [hasFilePath, findFolder, TreeNode.name, TreeNode.isFolder,
        if_pos (show p = p ∧ true = true from ⟨rfl, rfl⟩)]
      exact hasFilePath_insertPath idx (q :: rs) pth ch' (by simp)
    · rw [if_neg hcond]
      have hcond' : ¬(c.name = p ∧ c.isFolder = true) := by
        simpa using hcond
      show hasFilePath (p :: q :: rs) (c :: insertPath idx (p :: q :: rs) par cs) = true
      simp only [hasFilePath, findFolder, if_neg hcond']
      exact hasFilePath_insertPath idx (p :: q :: rs) par cs (by simp)
termination_by parts _ ch _ => (parts.length, ch.length)


/-- Unfolding forestIndices on a cons cell. -/
theorem forestIndices_cons (t : TreeNode) (ts : List TreeNode) :
    forestIndices (t :: ts) = nodeIndices t ++ forestIndices ts := rfl

/-- Unfolding nodeIndices on a node. -/
theorem nodeIndices_mk (n p : String) (f : Bool) (ch : List TreeNode) (fi : Option Nat) :
    nodeIndices (TreeNode.mk n p f ch fi) = fi.toList ++ forestIndices ch := rfl

/-- Inserting a path that the walk already finds changes nothing. -/
theorem insertPath_of_hasFilePath (idx : Nat) :
    ∀ (parts : List String) (par : String) (ch : List TreeNode),
      hasFilePath parts ch = true → insertPath idx parts par ch = ch
  | [], _, _, _ => rfl
  | p :: rest, _, [], h => by
    rw [hasFilePath_nil] at h
    cases h
  | [p], par, c :: cs, h => by
    rw [insertPath_cons]
    by_cases hcond : c.name = p ∧ c.isFolder = !([] : List String).isEmpty
    · rw [if_pos hcond]
    · rw [if_neg hcond]
      have hcm : (c.name == p && c.isFolder == false) = false := by
        by_cases h1 : c.name = p
        · have h2 : c.isFolder = true := by
            cases hcf : c.isFolder
            · exact absurd ⟨h1, by simp [hcf]⟩ hcond
            · rfl
          simp [h1, h2]
        · simp [beq_eq_false_iff_ne.mpr h1]
      have h' : hasFilePath [p] cs = true := by
        have hany : (c :: cs).any (fun d => d.name == p && d.isFolder == false) = true := h
        rw [List.any_cons, hcm, Bool.false_or] at hany
        exact hany
      rw [insertPath_of_hasFilePath idx [p] par cs h']
  | p :: q :: rs, par, c :: cs, h => by
    rw [insertPath_cons]
    by_cases hcond : c.name = p ∧ c.isFolder = !(q :: rs).isEmpty
    · rw [if_pos hcond]
      obtain ⟨n, pth, f, ch', fi⟩ := c
      have hn : n = p := hcond.1
      have hf : f = true := by simpa [TreeNode.isFolder] using hcond.2
      have h' : hasFilePath (q :: rs) ch' = true := by
        simp only [hasFilePath, findFolder, TreeNode.name, TreeNode.isFolder] at h
        rw [if_pos ⟨hn, hf⟩] at h
        simpa [TreeNode.children] using h
      show TreeNode.mk n pth f (insertPath idx (q :: rs) pth ch') fi :: cs
        = TreeNode.mk n pth f ch' fi :: cs
      rw [insertPath_of_hasFilePath idx (q :: rs) pth ch' h']
    · rw [if_neg hcond]
      have hcond' : ¬(c.name = p ∧ c.isFolder = true) := by
        simpa using hcond
      have h' : hasFilePath (p :: q :: rs) cs = true := by
        simp only [hasFilePath, findFolder, if_neg hcond'] at h
        exact h
      rw [insertPath_of_hasFilePath idx (p :: q :: rs) par cs h']
termination_by parts _ ch _ => (parts.length, ch.length)

/-- Inserting can add only the inserted index. -/
theorem mem_forestIndices_insertPath (idx : Nat) :
    ∀ (parts : List String) (par : String) (ch : List TreeNode) (x : Nat),
      x ∈ forestIndices (insertPath idx parts par ch) → x ∈ forestIndices ch ∨ x = idx
  | [], _, _, _, h => Or.inl h
  | p :: rest, par, [], x, h => by
    rw [insertPath_nil] at h
    right
    have he : forestIndices [buildChain idx par (p :: rest)] = [idx] := by
      rw [forestIndices_cons, nodeIndices_buildChain]
      rfl
    rw [he] at h
    simpa using h
  | [p], par, c :: cs, x, h => by
    rw [insertPath_cons] at h
    by_cases hcond : c.name = p ∧ c.isFolder = !([] : List String).isEmpty
    · rw [if_pos hcond] at h
      exact Or.inl h
    · rw [if_neg hcond] at h
      rw [forestIndices_cons] at h
      rcases List.mem_append.mp h with h2 | h2
      · exact Or.inl (by rw [forestIndices_cons]; exact List.mem_append.mpr (Or.inl h2))
      · rcases mem_forestIndices_insertPath idx [p] par cs x h2 with h3 | h3
        · exact Or.inl (by rw [forestIndices_cons]; exact List.mem_append.mpr (Or.inr h3))
        · exact Or.inr h3
  | p :: q :: rs, par, c :: cs, x, h => by
    rw [insertPath_cons] at h
    by_cases hcond : c.name = p ∧ c.isFolder = !(q :: rs).isEmpty
    · rw [if_pos hcond] at h
      obtain ⟨n, pth, f, ch', fi⟩ := c
      have h0 : x ∈ forestIndices
          (TreeNode.mk n pth f (insertPath idx (q :: rs) pth ch') fi :: cs) := h
      rw [forestIndices_cons, nodeIndices_mk] at h0
      rcases List.mem_append.mp h0 with h2 | h2
      · rcases List.mem_append.mp h2 with h3 | h3
        · refine Or.inl ?_
          rw [forestIndices_cons, nodeIndices_mk]
          exact List.mem_append.mpr (Or.inl (List.mem_append.mpr (Or.inl h3)))
        · rcases mem_forestIndices_insertPath idx (q :: rs) pth ch' x h3 with h4 | h4
          · refine Or.inl ?_
            rw [forestIndices_cons, nodeIndices_mk]
            exact List.mem_append.mpr (Or.inl (List.mem_append.mpr (Or.inr h4)))
          · exact Or.inr h4
      · refine Or.inl ?_
        rw [forestIndices_cons]
        exact List.mem_append.mpr (Or.inr h2)
    · rw [if_neg hcond] at h
      rw [forestIndices_cons] at h
      rcases List.mem_append.mp h with h2 | h2
      · exact Or.inl (by rw [forestIndices_cons]; exact List.mem_append.mpr (Or.inl h2))
      · rcases mem_forestIndices_insertPath idx (p :: q :: rs) par cs x h2 with h3 | h3
        · exact Or.inl (by rw [forestIndices_cons]; exact List.mem_append.mpr (Or.inr h3))
        · exact Or.inr h3
termination_by parts _ ch _ _ => (parts.length, ch.length)

/-- Inserting never removes indices already present. -/
theorem forestIndices_insertPath_preserve (idx : Nat) :
    ∀ (parts : List String) (par : String) (ch : List TreeNode) (x : Nat),
      x ∈ forestIndices ch → x ∈ forestIndices (insertPath idx parts par ch)
  | [], _, _, _, h => h
  | _ :: _, _, [], x, h => absurd h (List.not_mem_nil x)
  | [p], par, c :: cs, x, h => by
    rw [insertPath_cons]
    by_cases hcond : c.name = p ∧ c.isFolder = !([] : List String).isEmpty
    · rw [if_pos hcond]
      exact h
    · rw [if_neg hcond]
      rw [forestIndices_cons] at h ⊢
      rcases List.mem_append.mp h with h2 | h2
      · exact List.mem_append.mpr (Or.inl h2)
      · exact List.mem_append.mpr
          (Or.inr (forestIndices_insertPath_preserve idx [p] par cs x h2))
  | p :: q :: rs, par, c :: cs, x, h => by
    rw [insertPath_cons]
    by_cases hcond : c.name = p ∧ c.isFolder = !(q :: rs).isEmpty
    · rw [if_pos hcond]
      obtain ⟨n, pth, f, ch', fi⟩ := c
      rw [forestIndices_cons, nodeIndices_mk] at h
      show x ∈ forestIndices
        (TreeNode.mk n pth f (insertPath idx (q :: rs) pth ch') fi :: cs)
      rw [forestIndices_cons, nodeIndices_mk]
      rcases List.mem_append.mp h with h2 | h2
      · rcases List.mem_append.mp h2 with h3 | h3
        · exact List.mem_append.mpr (Or.inl (List.mem_append.mpr (Or.inl h3)))
        · exact List.mem_append.mpr (Or.inl (List.mem_append.mpr
            (Or.inr (forestIndices_insertPath_preserve idx (q :: rs) pth ch' x h3))))
      · exact List.mem_append.mpr (Or.inr h2)
    · rw [if_neg hcond]
      rw [forestIndices_cons] at h ⊢
      rcases List.mem_append.mp h with h2 | h2
      · exact List.mem_append.mpr (Or.inl h2)
      · exact List.mem_append.mpr
          (Or.inr (forestIndices_insertPath_preserve idx (p :: q :: rs) par cs x h2))
termination_by parts _ ch _ _ => (parts.length, ch.length)

/-- Inserting a path that the walk does not yet find records the new
index somewhere in the forest. -/
theorem mem_insertPath_of_not_hasFilePath (idx : Nat) :
    ∀ (parts : List String) (par : String) (ch : List TreeNode), parts ≠ [] →
      hasFilePath parts ch = false → idx ∈ forestIndices (insertPath idx parts par ch)
  | [], _, _, h, _ => absurd rfl h
  | p :: rest, par, [], _, _ => by
    rw [insertPath_nil, forestIndices_cons, nodeIndices_buildChain]
    simp
  | [p], par, c :: cs, _, hfp => by
    rw [insertPath_cons]
    by_cases hcond : c.name = p ∧ c.isFolder = !([] : List String).isEmpty
    · exfalso
      have h2 : c.isFolder = false := by simpa using hcond.2
      have hcm : (c.name == p && c.isFolder == false) = true := by
        simp [hcond.1, h2]
      have hT : hasFilePath [p] (c :: cs) = true := by
        show (c :: cs).any (fun d => d.name == p && d.isFolder == false) = true
        rw [List.any_cons, hcm]
        simp
      rw [hT] at hfp
      cases hfp
    · rw [if_neg hcond]
      have hcm : (c.name == p && c.isFolder == false) = false := by
        by_cases h1 : c.name = p
        · have h2 : c.isFolder = true := by
            cases hcf : c.isFolder
            · exact absurd ⟨h1, by simp [hcf]⟩ hcond
            · rfl
          simp [h1, h2]
        · simp [beq_eq_false_iff_ne.mpr h1]
      have hfp' : hasFilePath [p] cs = false := by
        have h0 : (c :: cs).any (fun d => d.name == p && d.isFolder == false) = false := hfp
        rw [List.any_cons, hcm, Bool.false_or] at h0
        exact h0
      rw [forestIndices_cons]
      exact List.mem_append.mpr
        (Or.inr (mem_insertPath_of_not_hasFilePath idx [p] par cs (by simp) hfp'))
  | p :: q :: rs, par, c :: cs, _, hfp => by
    rw [insertPath_cons]
    by_cases hcond : c.name = p ∧ c.isFolder = !(q :: rs).isEmpty
    · rw [if_pos hcond]
      obtain ⟨n, pth, f, ch', fi⟩ := c
      have hn : n = p := hcond.1
      have hf : f = true := by simpa [TreeNode.isFolder] using hcond.2
      have hfp' : hasFilePath (q :: rs) ch' = false := by
        simp only [hasFilePath, findFolder, TreeNode.name, TreeNode.isFolder] at hfp
        rw [if_pos ⟨hn, hf⟩] at hfp
        simpa [TreeNode.children] using hfp
      show idx ∈ forestIndices
        (TreeNode.mk n pth f (insertPath idx (q :: rs) pth ch') fi :: cs)
      rw [forestIndices_cons, nodeIndices_mk]
      exact List.mem_append.mpr (Or.inl (List.mem_append.mpr (Or.inr
        (mem_insertPath_of_not_hasFilePath idx (q :: rs) pth ch' (by simp) hfp'))))
    · rw [if_neg hcond]
      have hcond' : ¬(c.name = p ∧ c.isFolder = true) := by
        simpa using hcond
      have hfp' : hasFilePath (p :: q :: rs) cs = false := by
        simp only [hasFilePath, findFolder, if_neg hcond'] at hfp
        exact hfp
      rw [forestIndices_cons]
      exact List.mem_append.mpr (Or.inr
        (mem_insertPath_of_not_hasFilePath idx (p :: q :: rs) par cs (by simp) hfp'))
termination_by parts _ ch _ _ => (parts.length, ch.length)

/-- A path the walk already finds is still found after any insertion. -/
theorem hasFilePath_insertPath_preserve (idx : Nat) :
    ∀ (parts : List String) (par : String) (ch : List TreeNode) (q : List String),
      hasFilePath q ch = true → hasFilePath q (insertPath idx parts par ch) = true
  | [], _, _, _, h => h
  | _ :: _, _, [], q, h => by
    rw [hasFilePath_nil] at h
    cases h
  | [p], par, c :: cs, q, h => by
    rw [insertPath_cons]
    by_cases hcond : c.name = p ∧ c.isFolder = !([] : List String).isEmpty
    · rw [if_pos hcond]
      exact h
    · rw [if_neg hcond]
      match q with
      | [] => cases h
      | [p'] =>
        have h0 : ((c.name == p' && c.isFolder == false)
            || cs.any (fun d => d.name == p' && d.isFolder == false)) = true := by
          have h1 : (c :: cs).any (fun d => d.name == p' && d.isFolder == false) = true := h
          rwa [List.any_cons] at h1
        show (c :: insertPath idx [p] par cs).any
          (fun d => d.name == p' && d.isFolder == false) = true
        rw [List.any_cons]
        cases hpc : (c.name == p' && c.isFolder == false) with
        | true => simp
        | false =>
          rw [hpc, Bool.false_or] at h0
          have h2 := hasFilePath_insertPath_preserve idx [p] par cs [p'] h0
          have h3 : (insertPath idx [p] par cs).any
              (fun d => d.name == p' && d.isFolder == false) = true := h2
          rw [h3]
          simp
      | p' :: r0 :: rs' =>
        by_cases hc2 : c.name = p' ∧ c.isFolder = true
        · simp only [hasFilePath, findFolder, if_pos hc2] at h ⊢
          exact h
        · simp only [hasFilePath, findFolder, if_neg hc2] at h ⊢
          exact hasFilePath_insertPath_preserve idx [p] par cs (p' :: r0 :: rs') h
  | p :: q0 :: rs0, par, c :: cs, q, h => by
    rw [insertPath_cons]
    by_cases hcond : c.name = p ∧ c.isFolder = !(q0 :: rs0).isEmpty
    · rw [if_pos hcond]
      obtain ⟨n, pth, f, ch', fi⟩ := c
      have hn : n = p := hcond.1
      have hf : f = true := by simpa [TreeNode.isFolder] using hcond.2
      subst hf
      match q with
      | [] => cases h
      | [p'] =>
        have hpcu : ((TreeNode.mk n pth true
            (insertPath idx (q0 :: rs0) pth ch') fi).name == p'
              && (TreeNode.mk n pth true (insertPath idx (q0 :: rs0) pth ch') fi).isFolder
                == false) = false := by
          simp [TreeNode.name, TreeNode.isFolder]
        have hpco : ((TreeNode.mk n pth true ch' fi).name == p'
            && (TreeNode.mk n pth true ch' fi).isFolder == false) = false := by
          simp [TreeNode.name, TreeNode.isFolder]
        have h0 : cs.any (fun d => d.name == p' && d.isFolder == false) = true := by
          have h1 : (TreeNode.mk n pth true ch' fi :: cs).any
              (fun d => d.name == p' && d.isFolder == false) = true := h
          rwa [List.any_cons, hpco, Bool.false_or] at h1
        show (TreeNode.mk n pth true (insertPath idx (q0 :: rs0) pth ch') fi :: cs).any
          (fun d => d.name == p' && d.isFolder == false) = true
        rw [List.any_cons, hpcu, Bool.false_or]
        exact h0
      | p' :: r0 :: rs' =>
        by_cases hc2 : n = p'
        · have hcu : (TreeNode.mk n pth true
              (insertPath idx (q0 :: rs0) pth ch') fi).name = p'
              ∧ (TreeNode.mk n pth true (insertPath idx (q0 :: rs0) pth ch') fi).isFolder
                = true := ⟨hc2, rfl⟩
          have hco : (TreeNode.mk n pth true ch' fi).name = p'
              ∧ (TreeNode.mk n pth true ch' fi).isFolder = true := ⟨hc2, rfl⟩
          simp only [hasFilePath, findFolder, if_pos hco] at h
          simp only [hasFilePath, findFolder, if_pos hcu]
          show hasFilePath (r0 :: rs') (insertPath idx (q0 :: rs0) pth ch') = true
          exact hasFilePath_insertPath_preserve idx (q0 :: rs0) pth ch' (r0 :: rs')
            (by simpa [TreeNode.children] using h)
        · have hcu : ¬((TreeNode.mk n pth true
              (insertPath idx (q0 :: rs0) pth ch') fi).name = p'
              ∧ (TreeNode.mk n pth true (insertPath idx (q0 :: rs0) pth ch') fi).isFolder
                = true) := fun hx => hc2 hx.1
          have hco : ¬((TreeNode.mk n pth true ch' fi).name = p'
              ∧ (TreeNode.mk n pth true ch' fi).isFolder = true) := fun hx => hc2 hx.1
          simp only [hasFilePath, findFolder, if_neg hco] at h
          simp only [hasFilePath, findFolder, if_neg hcu]
          exact h
    · rw [if_neg hcond]
      match q with
      | [] => cases h
      | [p'] =>
        have h0 : ((c.name == p' && c.isFolder == false)
            || cs.any (fun d => d.name == p' && d.isFolder == false)) = true := by
          have h1 : (c :: cs).any (fun d => d.name == p' && d.isFolder == false) = true := h
          rwa [List.any_cons] at h1
        show (c :: insertPath idx (p :: q0 :: rs0) par cs).any
          (fun d => d.name == p' && d.isFolder == false) = true
        rw [List.any_cons]
        cases hpc : (c.name == p' && c.isFolder == false) with
        | true => simp
        | false =>
          rw [hpc, Bool.false_or] at h0
          have h2 := hasFilePath_insertPath_preserve idx (p :: q0 :: rs0) par cs [p'] h0
          have h3 : (insertPath idx (p :: q0 :: rs0) par cs).any
              (fun d => d.name == p' && d.isFolder == false) = true := h2
          rw [h3]
          simp
      | p' :: r0 :: rs' =>
        by_cases hc2 : c.name = p' ∧ c.isFolder = true
        · simp only [hasFilePath, findFolder, if_pos hc2] at h ⊢
          exact h
        · simp only [hasFilePath, findFolder, if_neg hc2] at h ⊢
          exact hasFilePath_insertPath_preserve idx (p :: q0 :: rs0) par cs
            (p' :: r0 :: rs') h
termination_by parts _ ch _ _ => (parts.length, ch.length)

/-- Only the chain's own path is found in a freshly created chain. -/
theorem hasFilePath_buildChain_inv (idx : Nat) :
    ∀ (parts : List String) (par : String), parts ≠ [] →
      ∀ q : List String, hasFilePath q [buildChain idx par parts] = true → q = parts
  | [], _, hne, _, _ => absurd rfl hne
  | [p], par, _, q, h => by
    match q with
    | [] => cases h
    | [p'] =>
      have h2 : p' = p := by
        have h0 : hasFilePath [p'] [buildChain idx par [p]] = true := h
        simp [buildChain, hasFilePath, List.any_cons, TreeNode.name,
          TreeNode.isFolder] at h0
        exact h0.symm
      rw [h2]
    | p' :: r0 :: rs' =>
      exfalso
      have hcnd : ¬((buildChain idx par [p]).name = p'
          ∧ (buildChain idx par [p]).isFolder = true) := by
        rintro ⟨_, hx⟩
        simp [buildChain, TreeNode.isFolder] at hx
      have h1 : hasFilePath (p' :: r0 :: rs') [buildChain idx par [p]] = true := h
      simp only [hasFilePath, findFolder, if_neg hcnd, hasFilePath_nil] at h1
      cases h1
  | p :: q0 :: rs, par, _, q, h => by
    match q with
    | [] => cases h
    | [p'] =>
      exfalso
      have h0 : hasFilePath [p'] [buildChain idx par (p :: q0 :: rs)] = true := h
      simp [buildChain, hasFilePath, List.any_cons, TreeNode.name,
        TreeNode.isFolder] at h0
    | p' :: r0 :: rs' =>
      by_cases hpp : p = p'
      · have hcnd : (buildChain idx par (p :: q0 :: rs)).name = p'
            ∧ (buildChain idx par (p :: q0 :: rs)).isFolder = true := by
          constructor
          · simpa [buildChain, TreeNode.name] using hpp
          · simp [buildChain, TreeNode.isFolder]
        have h0 : hasFilePath (r0 :: rs')
            (buildChain idx par (p :: q0 :: rs)).children = true := by
          have h1 : hasFilePath (p' :: r0 :: rs')
              [buildChain idx par (p :: q0 :: rs)] = true := h
          simp only [hasFilePath, findFolder, if_pos hcnd] at h1
          exact h1
        have h2 : (buildChain idx par (p :: q0 :: rs)).children
            = [buildChain idx (childPath par p) (q0 :: rs)] := by
          simp [buildChain, TreeNode.children]
        rw [h2] at h0
        have h3 := hasFilePath_buildChain_inv idx (q0 :: rs) (childPath par p)
          (by simp) (r0 :: rs') h0
        rw [hpp, h3]
      · exfalso
        have hcnd : ¬((buildChain idx par (p :: q0 :: rs)).name = p'
            ∧ (buildChain idx par (p :: q0 :: rs)).isFolder = true) := by
          intro hx
          exact hpp (by simpa [buildChain, TreeNode.name] using hx.1)
        have h1 : hasFilePath (p' :: r0 :: rs')
            [buildChain idx par (p :: q0 :: rs)] = true := h
        simp only [hasFilePath, findFolder, if_neg hcnd, hasFilePath_nil] at h1
        cases h1

/-- Any path found after an insertion was either already found or is the
inserted path itself. -/
theorem hasFilePath_insertPath_inv (idx : Nat) :
    ∀ (parts : List String) (par : String) (ch : List TreeNode) (q : List String),
      hasFilePath q (insertPath idx parts par ch) = true →
      hasFilePath q ch = true ∨ q = parts
  | [], _, _, _, h => Or.inl h
  | p :: rest, par, [], q, h => by
    rw [insertPath_nil] at h
    exact Or.inr (hasFilePath_buildChain_inv idx (p :: rest) par (by simp) q h)
  | [p], par, c :: cs, q, h => by
    rw [insertPath_cons] at h
    by_cases hcond : c.name = p ∧ c.isFolder = !([] : List String).isEmpty
    · rw [if_pos hcond] at h
      exact Or.inl h
    · rw [if_neg hcond] at h
      match q, h with
      | [], h => cases h
      | [p'], h =>
        cases hpc : (c.name == p' && c.isFolder == false) with
        | true =>
          refine Or.inl ?_
          show (c :: cs).any (fun d => d.name == p' && d.isFolder == false) = true
          rw [List.any_cons, hpc]
          simp
        | false =>
          have h0 : (insertPath idx [p] par cs).any
              (fun d => d.name == p' && d.isFolder == false) = true := by
            have h1 : (c :: insertPath idx [p] par cs).any
                (fun d => d.name == p' && d.isFolder == false) = true := h
            rwa [List.any_cons, hpc, Bool.false_or] at h1
          rcases hasFilePath_insertPath_inv idx [p] par cs [p'] h0 with h2 | h2
          · refine Or.inl ?_
            show (c :: cs).any (fun d => d.name == p' && d.isFolder == false) = true
            rw [List.any_cons, hpc, Bool.false_or]
            exact h2
          · exact Or.inr h2
      | p' :: r0 :: rs', h =>
        by_cases hc2 : c.name = p' ∧ c.isFolder = true
        · simp only [hasFilePath, findFolder, if_pos hc2] at h
          refine Or.inl ?_
          simp only [hasFilePath, findFolder, if_pos hc2]
          exact h
        · simp only [hasFilePath, findFolder, if_neg hc2] at h
          rcases hasFilePath_insertPath_inv idx [p] par cs (p' :: r0 :: rs') h with h2 | h2
          · refine Or.inl ?_
            simp only [hasFilePath, findFolder, if_neg hc2]
            exact h2
          · exact Or.inr h2
  | p :: q0 :: rs0, par, c :: cs, q, h => by
    rw [insertPath_cons] at h
    by_cases hcond : c.name = p ∧ c.isFolder = !(q0 :: rs0).isEmpty
    · rw [if_pos hcond] at h
      obtain ⟨n, pth, f, ch', fi⟩ := c
      have hn : n = p := hcond.1
      have hf : f = true := by simpa [TreeNode.isFolder] using hcond.2
      subst hf
      match q, h with
      | [], h => cases h
      | [p'], h =>
        have hpcu : ((TreeNode.mk n pth true
            (insertPath idx (q0 :: rs0) pth ch') fi).name == p'
              && (TreeNode.mk n pth true (insertPath idx (q0 :: rs0) pth ch') fi).isFolder
                == false) = false := by
          simp [TreeNode.name, TreeNode.isFolder]
        have h0 : cs.any (fun d => d.name == p' && d.isFolder == false) = true := by
          have h1 : (TreeNode.mk n pth true (insertPath idx (q0 :: rs0) pth ch') fi
              :: cs).any (fun d => d.name == p' && d.isFolder == false) = true := h
          rwa [List.any_cons, hpcu, Bool.false_or] at h1
        refine Or.inl ?_
        show (TreeNode.mk n pth true ch' fi :: cs).any
          (fun d => d.name == p' && d.isFolder == false) = true
        rw [List.any_cons, show ((TreeNode.mk n pth true ch' fi).name == p'
          && (TreeNode.mk n pth true ch' fi).isFolder == false) = false by
            simp [TreeNode.name, TreeNode.isFolder], Bool.false_or]
        exact h0
      | p' :: r0 :: rs', h =>
        by_cases hc2 : n = p'
        · have hcu : (TreeNode.mk n pth true
              (insertPath idx (q0 :: rs0) pth ch') fi).name = p'
              ∧ (TreeNode.mk n pth true (insertPath idx (q0 :: rs0) pth ch') fi).isFolder
                = true := ⟨hc2, rfl⟩
          have hco : (TreeNode.mk n pth true ch' fi).name = p'
              ∧ (TreeNode.mk n pth true ch' fi).isFolder = true := ⟨hc2, rfl⟩
          simp only [hasFilePath, findFolder, if_pos hcu] at h
          have h0 : hasFilePath (r0 :: rs') (insertPath idx (q0 :: rs0) pth ch') = true := by
            simpa [TreeNode.children] using h
          rcases hasFilePath_insertPath_inv idx (q0 :: rs0) pth ch' (r0 :: rs') h0 with h2 | h2
          · refine Or.inl ?_
            simp only [hasFilePath, findFolder, if_pos hco]
            simpa [TreeNode.children] using h2
          · refine Or.inr ?_
            rw [h2, ← hc2, hn]
        · have hcu : ¬((TreeNode.mk n pth true
              (insertPath idx (q0 :: rs0) pth ch') fi).name = p'
              ∧ (TreeNode.mk n pth true (insertPath idx (q0 :: rs0) pth ch') fi).isFolder
                = true) := fun hx => hc2 hx.1
          have hco : ¬((TreeNode.mk n pth true ch' fi).name = p'
              ∧ (TreeNode.mk n pth true ch' fi).isFolder = true) := fun hx => hc2 hx.1
          simp only [hasFilePath, findFolder, if_neg hcu] at h
          refine Or.inl ?_
          simp only [hasFilePath, findFolder, if_neg hco]
          exact h
    · rw [if_neg hcond] at h
      match q, h with
      | [], h => cases h
      | [p'], h =>
        cases hpc : (c.name == p' && c.isFolder == false) with
        | true =>
          refine Or.inl ?_
          show (c :: cs).any (fun d => d.name == p' && d.isFolder == false) = true
          rw [List.any_cons, hpc]
          simp
        | false =>
          have h0 : (insertPath idx (p :: q0 :: rs0) par cs).any
              (fun d => d.name == p' && d.isFolder == false) = true := by
            have h1 : (c :: insertPath idx (p :: q0 :: rs0) par cs).any
                (fun d => d.name == p' && d.isFolder == false) = true := h
            rwa [List.any_cons, hpc, Bool.false_or] at h1
          rcases hasFilePath_insertPath_inv idx (p :: q0 :: rs0) par cs [p'] h0 with h2 | h2
          · refine Or.inl ?_
            show (c :: cs).any (fun d => d.name == p' && d.isFolder == false) = true
            rw [List.any_cons, hpc, Bool.false_or]
            exact h2
          · exact Or.inr h2
      | p' :: r0 :: rs', h =>
        by_cases hc2 : c.name = p' ∧ c.isFolder = true
        · simp only [hasFilePath, findFolder, if_pos hc2] at h
          refine Or.inl ?_
          simp only [hasFilePath, findFolder, if_pos hc2]
          exact h
        · simp only [hasFilePath, findFolder, if_neg hc2] at h
          rcases hasFilePath_insertPath_inv idx (p :: q0 :: rs0) par cs
            (p' :: r0 :: rs') h with h2 | h2
          · refine Or.inl ?_
            simp only [hasFilePath, findFolder, if_neg hc2]
            exact h2
          · exact Or.inr h2
termination_by parts _ ch _ _ => (parts.length, ch.length)

/-- Unfolding buildFold on an empty record list. -/
theorem buildFold_nil (acc : List TreeNode) : buildFold acc [] = acc := rfl

/-- Unfolding buildFold on a record cons cell. -/
theorem buildFold_cons (acc : List TreeNode) (pr : Nat × FileData)
    (ps : List (Nat × FileData)) :
    buildFold acc (pr :: ps)
      = buildFold (insertPath pr.1 (splitSlash pr.2.name) "" acc) ps := rfl

/-- Indices of the built forest come from the start forest or from the
inserted records. -/
theorem mem_forestIndices_buildFold :
    ∀ (ps : List (Nat × FileData)) (acc : List TreeNode) (x : Nat),
      x ∈ forestIndices (buildFold acc ps) →
      x ∈ forestIndices acc ∨ ∃ pr ∈ ps, x = pr.1
  | [], _, _, h => Or.inl h
  | pr :: ps, acc, x, h => by
    rw [buildFold_cons] at h
    rcases mem_forestIndices_buildFold ps _ x h with h2 | h2
    · rcases mem_forestIndices_insertPath pr.1 (splitSlash pr.2.name) "" acc x h2 with h3 | h3
      · exact Or.inl h3
      · exact Or.inr ⟨pr, List.mem_cons_self _ _, h3⟩
    · obtain ⟨pr', hpr', hx⟩ := h2
      exact Or.inr ⟨pr', List.mem_cons_of_mem _ hpr', hx⟩

/-- Found paths stay found along the whole build. -/
theorem hasFilePath_buildFold_preserve :
    ∀ (ps : List (Nat × FileData)) (acc : List TreeNode) (q : List String),
      hasFilePath q acc = true → hasFilePath q (buildFold acc ps) = true
  | [], _, _, h => h
  | pr :: ps, acc, q, h => by
    rw [buildFold_cons]
    exact hasFilePath_buildFold_preserve ps _ q
      (hasFilePath_insertPath_preserve pr.1 (splitSlash pr.2.name) "" acc q h)

/-- Recorded indices stay recorded along the whole build. -/
theorem forestIndices_buildFold_preserve :
    ∀ (ps : List (Nat × FileData)) (acc : List TreeNode) (x : Nat),
      x ∈ forestIndices acc → x ∈ forestIndices (buildFold acc ps)
  | [], _, _, h => h
  | pr :: ps, acc, x, h => by
    rw [buildFold_cons]
    exact forestIndices_buildFold_preserve ps _ x
      (forestIndices_insertPath_preserve pr.1 (splitSlash pr.2.name) "" acc x h)

/-- Paths found after the build were found initially or belong to some
inserted record. -/
theorem hasFilePath_buildFold_inv :
    ∀ (ps : List (Nat × FileData)) (acc : List TreeNode) (q : List String),
      hasFilePath q (buildFold acc ps) = true →
      hasFilePath q acc = true ∨ ∃ pr ∈ ps, splitSlash pr.2.name = q
  | [], _, _, h => Or.inl h
  | pr :: ps, acc, q, h => by
    rw [buildFold_cons] at h
    rcases hasFilePath_buildFold_inv ps _ q h with h2 | h2
    · rcases hasFilePath_insertPath_inv pr.1 (splitSlash pr.2.name) "" acc q h2 with h3 | h3
      · exact Or.inl h3
      · exact Or.inr ⟨pr, List.mem_cons_self _ _, h3.symm⟩
    · obtain ⟨pr', hpr', hx⟩ := h2
      exact Or.inr ⟨pr', List.mem_cons_of_mem _ hpr', hx⟩

/-- A record whose path is already realised, and whose index is absent,
never gets its index recorded by the remaining build, provided every
remaining record carrying that index has exactly that path. -/
theorem not_mem_forestIndices_buildFold (j : Nat) (parts0 : List String) :
    ∀ (ps : List (Nat × FileData)) (acc : List TreeNode),
      hasFilePath parts0 acc = true →
      j ∉ forestIndices acc →
      (∀ pr ∈ ps, pr.1 = j → splitSlash pr.2.name = parts0) →
      j ∉ forestIndices (buildFold acc ps)
  | [], _, _, hnot, _ => hnot
  | pr :: ps, acc, hfp, hnot, hps => by
    rw [buildFold_cons]
    apply not_mem_forestIndices_buildFold j parts0 ps
    · exact hasFilePath_insertPath_preserve pr.1 (splitSlash pr.2.name) "" acc parts0 hfp
    · intro hx
      rcases mem_forestIndices_insertPath pr.1 (splitSlash pr.2.name) "" acc j hx with h2 | h2
      · exact hnot h2
      · have hsp : splitSlash pr.2.name = parts0 := hps pr (List.mem_cons_self _ _) h2.symm
        have hid : insertPath pr.1 (splitSlash pr.2.name) "" acc = acc := by
          rw [hsp]
          exact insertPath_of_hasFilePath pr.1 parts0 "" acc hfp
        rw [hid] at hx
        exact hnot hx
    · intro pr' hpr' hj
      exact hps pr' (List.mem_cons_of_mem _ hpr') hj

/-- Sorting a tree does not change which indices it records
(size-bounded helper for the induction). -/
theorem mem_nodeIndices_sortTree_bounded :
    ∀ (n : Nat) (t : TreeNode), sizeOf t ≤ n →
      ∀ x : Nat, x ∈ nodeIndices (sortTree t) ↔ x ∈ nodeIndices t := by
  intro n
  induction n with
  | zero =>
    intro t ht
    obtain ⟨nm, p, f, ch, fi⟩ := t
    simp [TreeNode.mk.sizeOf_spec] at ht
  | succ n ih =>
    intro t ht x
    obtain ⟨nm, p, f, ch, fi⟩ := t
    show x ∈ nodeIndices (TreeNode.mk nm p f
      (List.insertionSort rLE (sortForest ch)) fi) ↔ _
    rw [nodeIndices_mk, nodeIndices_mk, List.mem_append, List.mem_append]
    have hch : ∀ c ∈ ch, sizeOf c ≤ n := by
      intro c hc
      have h1 : sizeOf c < sizeOf ch := List.sizeOf_lt_of_mem hc
      have h2 : sizeOf ch < sizeOf (TreeNode.mk nm p f ch fi) := by
        simp [TreeNode.mk.sizeOf_spec]
        omega
      omega
    constructor
    · rintro (h | h)
      · exact Or.inl h
      · refine Or.inr ?_
        rw [mem_forestIndices] at h
        obtain ⟨u, hu, hx⟩ := h
        have hu' : u ∈ sortForest ch := (List.perm_insertionSort rLE _).mem_iff.mp hu
        rw [sortForest_eq_map] at hu'
        obtain ⟨c, hc, rfl⟩ := List.mem_map.mp hu'
        rw [mem_forestIndices]
        exact ⟨c, hc, (ih c (hch c hc) x).mp hx⟩
    · rintro (h | h)
      · exact Or.inl h
      · refine Or.inr ?_
        rw [mem_forestIndices] at h
        obtain ⟨c, hc, hx⟩ := h
        rw [mem_forestIndices]
        refine ⟨sortTree c, ?_, (ih c (hch c hc) x).mpr hx⟩
        apply (List.perm_insertionSort rLE _).mem_iff.mpr
        rw [sortForest_eq_map]
        exact List.mem_map.mpr ⟨c, hc, rfl⟩

/-- Sorting a tree does not change which indices it records. -/
theorem mem_nodeIndices_sortTree (t : TreeNode) (x : Nat) :
    x ∈ nodeIndices (sortTree t) ↔ x ∈ nodeIndices t :=
  mem_nodeIndices_sortTree_bounded (sizeOf t) t le_rfl x

/-- A node of the final tree records an index exactly when the unsorted
build does. -/
theorem mem_treeStructure_indices (files : List FileData) (x : Nat) :
    (∃ t ∈ treeStructure files, x ∈ nodeIndices t)
      ↔ x ∈ forestIndices (buildForest files) := by
  unfold treeStructure
  constructor
  · rintro ⟨t, ht, hx⟩
    have ht' : t ∈ sortForest (buildForest files) :=
      (List.perm_insertionSort rLE _).mem_iff.mp ht
    rw [sortForest_eq_map] at ht'
    obtain ⟨c, hc, rfl⟩ := List.mem_map.mp ht'
    rw [mem_forestIndices]
    exact ⟨c, hc, (mem_nodeIndices_sortTree c x).mp hx⟩
  · intro hx
    rw [mem_forestIndices] at hx
    obtain ⟨c, hc, hx⟩ := hx
    refine ⟨sortTree c, ?_, (mem_nodeIndices_sortTree c x).mpr hx⟩
    apply (List.perm_insertionSort rLE _).mem_iff.mpr
    rw [sortForest_eq_map]
    exact List.mem_map.mpr ⟨c, hc, rfl⟩

/-- Every leaf index the selection helper collects is recorded in the
node's subtree (size-bounded helper for the induction). -/
theorem getAll_sub_nodeIndices_bounded :
    ∀ (n : Nat) (t : TreeNode), sizeOf t ≤ n →
      ∀ x : Nat, x ∈ getAllIndicesUnderNode t → x ∈ nodeIndices t := by
  intro n
  induction n with
  | zero =>
    intro t ht
    obtain ⟨nm, p, f, ch, fi⟩ := t
    simp [TreeNode.mk.sizeOf_spec] at ht
  | succ n ih =>
    intro t ht x hx
    obtain ⟨nm, p, f, ch, fi⟩ := t
    have hch : ∀ c ∈ ch, sizeOf c ≤ n := by
      intro c hc
      have h1 : sizeOf c < sizeOf ch := List.sizeOf_lt_of_mem hc
      have h2 : sizeOf ch < sizeOf (TreeNode.mk nm p f ch fi) := by
        simp [TreeNode.mk.sizeOf_spec]
        omega
      omega
    have hforest : x ∈ indicesUnderForest ch → x ∈ nodeIndices (TreeNode.mk nm p f ch fi) := by
      intro hx'
      rw [mem_indicesUnderForest] at hx'
      obtain ⟨c, hc, hxc⟩ := hx'
      rw [nodeIndices_mk, List.mem_append, mem_forestIndices]
      exact Or.inr ⟨c, hc, ih c (hch c hc) x hxc⟩
    cases f with
    | false =>
      cases fi with
      | none => exact hforest hx
      | some i =>
        have he : getAllIndicesUnderNode (TreeNode.mk nm p false ch (some i)) = [i] := rfl
        rw [he] at hx
        have hxi : x = i := by simpa using hx
        rw [nodeIndices_mk, hxi]
        simp
    | true => exact hforest hx

/-- C10: when two store records carry the identical full path, the Tree
Builder merges them: the later record's index appears in no tree node
(so leaf-index collection, tri-state status and batch delete can never
reach it), and when the earlier record is the first with that path, its
index is the one recorded in the merged file node. -/
theorem duplicate_paths_unreachable (files : List FileData) (i j : Nat)
    (hi : i < files.length) (hj : j < files.length) (hij : i < j)
    (hname : files[i].name = files[j].name) :
    (∀ t ∈ treeStructure files, j ∉ nodeIndices t)
    ∧ (∀ t ∈ treeStructure files, j ∉ getAllIndicesUnderNode t)
    ∧ ((∀ k (hk : k < files.length), k < i → files[k].name ≠ files[i].name) →
        ∃ t ∈ treeStructure files, i ∈ nodeIndices t) := by
  have henum_len : files.enum.length = files.length := List.enum_length
  have henum_mem : ∀ pr ∈ files.enum, ∃ k, ∃ hk : k < files.length, pr = (k, files[k]) := by
    rintro ⟨a, b⟩ hpr
    rw [List.enum_eq_enumFrom] at hpr
    obtain ⟨_, ha, hb⟩ := List.mem_enumFrom hpr
    refine ⟨a, by omega, ?_⟩
    simp only [Nat.sub_zero] at hb
    rw [hb]
  have htake_mem : ∀ pr ∈ files.enum.take i,
      ∃ k, ∃ hk : k < files.length, k < i ∧ pr = (k, files[k]) := by
    intro pr hpr
    obtain ⟨m, hm, hpr'⟩ := List.mem_take_iff_getElem.mp hpr
    have hm1 : m < i := lt_of_lt_of_le hm inf_le_left
    have hm2 : m < files.length := by
      have := lt_of_lt_of_le hm inf_le_right
      omega
    refine ⟨m, hm2, hm1, ?_⟩
    rw [← hpr', List.getElem_enum]
  have hsplit : files.enum
      = files.enum.take i ++ (i, files[i]) :: files.enum.drop (i + 1) := by
    have h1 : files.enum.drop i = (i, files[i]) :: files.enum.drop (i + 1) := by
      rw [List.drop_eq_getElem_cons (by omega), List.getElem_enum]
    rw [← h1, List.take_append_drop]
  have happ : ∀ (acc : List TreeNode) (xs ys : List (Nat × FileData)),
      buildFold acc (xs ++ ys) = buildFold (buildFold acc xs) ys := by
    intro acc xs ys
    exact List.foldl_append _ _ _ _
  have hA : buildForest files
      = buildFold (insertPath i (splitSlash files[i].name) ""
          (buildFold [] (files.enum.take i))) (files.enum.drop (i + 1)) := by
    show buildFold [] files.enum = _
    conv_lhs => rw [hsplit]
    rw [happ, buildFold_cons]
  have hfpA' : hasFilePath (splitSlash files[i].name)
      (insertPath i (splitSlash files[i].name) ""
        (buildFold [] (files.enum.take i))) = true :=
    hasFilePath_insertPath i (splitSlash files[i].name) "" _
      (splitSlash_ne_nil _)
  have hjnot : j ∉ forestIndices (insertPath i (splitSlash files[i].name) ""
      (buildFold [] (files.enum.take i))) := by
    intro hx
    rcases mem_forestIndices_insertPath i (splitSlash files[i].name) "" _ j hx with h2 | h2
    · rcases mem_forestIndices_buildFold (files.enum.take i) [] j h2 with h3 | h3
      · exact absurd h3 (List.not_mem_nil j)
      · obtain ⟨pr, hpr, hjpr⟩ := h3
        obtain ⟨k, hk, hki, hprk⟩ := htake_mem pr hpr
        rw [hprk] at hjpr
        simp at hjpr
        omega
    · omega
  have hps : ∀ pr ∈ files.enum.drop (i + 1), pr.1 = j →
      splitSlash pr.2.name = splitSlash files[i].name := by
    intro pr hpr hprj
    obtain ⟨k, hk, hprk⟩ := henum_mem pr (List.mem_of_mem_drop hpr)
    rw [hprk] at hprj
    have hkj : k = j := by simpa using hprj
    rw [hprk]
    show splitSlash files[k].name = _
    subst hkj
    rw [← hname]
  have habsent : j ∉ forestIndices (buildForest files) := by
    rw [hA]
    exact not_mem_forestIndices_buildFold j (splitSlash files[i].name)
      (files.enum.drop (i + 1)) _ hfpA' hjnot hps
  refine ⟨?_, ?_, ?_⟩
  · intro t ht hx
    exact habsent ((mem_treeStructure_indices files j).mp ⟨t, ht, hx⟩)
  · intro t ht hx
    exact habsent ((mem_treeStructure_indices files j).mp
      ⟨t, ht, getAll_sub_nodeIndices_bounded (sizeOf t) t le_rfl j hx⟩)
  · intro hfirst
    have hnfp : hasFilePath (splitSlash files[i].name)
        (buildFold [] (files.enum.take i)) = false := by
      cases hcase : hasFilePath (splitSlash files[i].name)
          (buildFold [] (files.enum.take i)) with
      | false => rfl
      | true =>
        exfalso
        rcases hasFilePath_buildFold_inv (files.enum.take i) []
            (splitSlash files[i].name) hcase with h2 | h2
        · rw [hasFilePath_nil] at h2
          cases h2
        · obtain ⟨pr, hpr, hsp⟩ := h2
          obtain ⟨k, hk, hki, hprk⟩ := htake_mem pr hpr
          rw [hprk] at hsp
          have hksame : files[k].name = files[i].name := splitSlash_injective hsp
          exact hfirst k hk hki hksame
    have hmem1 : i ∈ forestIndices (insertPath i (splitSlash files[i].name) ""
        (buildFold [] (files.enum.take i))) :=
      mem_insertPath_of_not_hasFilePath i (splitSlash files[i].name) "" _
        (splitSlash_ne_nil _) hnfp
    have hmem2 : i ∈ forestIndices (buildForest files) := by
      rw [hA]
      exact forestIndices_buildFold_preserve (files.enum.drop (i + 1)) _ i hmem1
    exact (mem_treeStructure_indices files i).mpr hmem2

/-- C10 witness: two records with the identical path a.txt merge into a
single file node carrying index 0; index 1 appears nowhere. -/
theorem duplicate_paths_unreachable_witness :
    treeStructure [⟨"a.txt", "1"⟩, ⟨"a.txt", "2"⟩]
        = [TreeNode.mk "a.txt" "a.txt" false [] (some 0)]
    ∧ (1 : Nat) ∉ nodeIndices (TreeNode.mk "a.txt" "a.txt" false [] (some 0))
    ∧ (0 : Nat) ∈ nodeIndices (TreeNode.mk "a.txt" "a.txt" false [] (some 0)) := by
  refine ⟨rfl, ?_, by decide⟩
  exact (duplicate_paths_unreachable [⟨"a.txt", "1"⟩, ⟨"a.txt", "2"⟩] 0 1
    (by decide) (by decide) (by decide) rfl).1
    (TreeNode.mk "a.txt" "a.txt" false [] (some 0))
    (by rw [show treeStructure [⟨"a.txt", "1"⟩, ⟨"a.txt", "2"⟩]
        = [TreeNode.mk "a.txt" "a.txt" false [] (some 0)] from rfl]; simp)
